import Mathlib

/-!
# Unbounded channel (`internal/async/gen.go`) and composite font face
(`internal/painter/font.go`)

The unbounded channel is embedded as a labelled transition system.  A state
holds the two buffered handoff channels `in`/`out` (capacity 16), the
unbuffered `close` channel, the relay goroutine's private slice `q` (length
and capacity) and the relay's program point.  One transition is one
communication of one goroutine: a producer send on `In()`, a consumer receive
on `Out()`, a call of `Close()`, a raw `close(ch.In())`, or one step of the
relay goroutine `processing()` (one `select`, or one statement of `closed()`).
A `select` with several ready cases is resolved by the label of the relay
event, so every scheduling and every choice of Go's `select` is a trace.
An unrecovered Go panic ends the program: it is recorded in `fault`, and no
transition leaves a faulted state.
-/

namespace Async

/-- Capacity of the handoff channels: `make(chan T, 16)`. -/
def slotCap : Nat := 16

/-- A buffered Go channel: the values in its buffer (oldest first) and whether
it has been closed. -/
structure Chan (α : Type) where
  buf : List α
  closed : Bool
deriving DecidableEq, Repr

/-- The panics the code can raise: the explicit `panic("async: misuse of
unbounded channel, In() was closed")` and the two runtime panics of channel
operations. -/
inductive Fault where
  | misuseInClosed
  | closeOfClosedChannel
  | sendOnClosedChannel
deriving DecidableEq, Repr

/-- Program points of the relay goroutine `processing()`; `closedEntry` to
`closeSignal` are the statements of `closed()`. -/
inductive PC where
  | outerSelect
  | innerSelect
  | closedEntry
  | closedDrain
  | closedFlush
  | closeOut
  | closeSignal
  | returned
deriving DecidableEq, Repr

/-- The struct `Unbounded{{.Name}}Chan` together with the control state of its
relay goroutine.  `in_`, `out`, `q` are the fields `in`, `out`, `q`; `qcap` is
`cap(ch.q)`; `closeWaiting` counts the callers of `Close()` blocked in the send
on the unbuffered `close` channel and `closeClosed` says whether that channel
has been closed. -/
structure UnboundedChan (α : Type) where
  in_ : Chan α
  out : Chan α
  closeWaiting : Nat
  closeClosed : Bool
  q : List α
  qcap : Nat
  pc : PC
  fault : Option Fault
deriving DecidableEq, Repr

/-- The case a `select` of the relay picks; `next` is the next statement of
`closed()`, which has no choice. -/
inductive Choice where
  | recvIn
  | sendOut
  | recvClose
  | next
deriving DecidableEq, Repr

/-- Transition labels. -/
inductive Event (α : Type) where
  | send (v : α)
  | recv
  | callClose
  | closeIn
  | relay (c : Choice)
deriving DecidableEq, Repr

/-- The constructor `NewUnbounded{{.Name}}Chan()`: both handoff channels empty and open, and the
relay started; the relay's first statement `ch.q = make([]T, 0, 1<<10)` touches
only its private slice and is folded into the initial state, which leaves the
relay at the `select` of the outer loop. -/
def NewUnboundedChan (α : Type) : UnboundedChan α :=
  { in_ := ⟨[], false⟩, out := ⟨[], false⟩, closeWaiting := 0, closeClosed := false,
    q := [], qcap := 1024, pc := .outerSelect, fault := none }

/-- The statement `ch.q = append(ch.q, e)`: the capacity is kept while there is
room and is otherwise whatever the runtime's slice growth `grow` gives. -/
def appendQ {α : Type} (grow : Nat → Nat) (s : UnboundedChan α) (e : α) : UnboundedChan α :=
  { s with q := s.q ++ [e], qcap := if s.q.length < s.qcap then s.qcap else grow s.qcap }

/-- Head of the inner loop `for len(ch.q) > 0` and, when the loop is left, the
reallocation `if cap(ch.q) < 1<<5 { ch.q = make([]T, 0, 1<<10) }` followed by the
jump back to the outer `select`. -/
def innerLoop {α : Type} (s : UnboundedChan α) : UnboundedChan α :=
  if 0 < s.q.length then { s with pc := .innerSelect }
  else if s.qcap < 32 then { s with q := [], qcap := 1024, pc := .outerSelect }
  else { s with pc := .outerSelect }

/-- The case `e, ok := <-ch.in` of either `select`: ready when `in` holds a value
(then `ok` is true and `e` is appended to `q`) or when `in` is closed and
drained (then `ok` is false and the relay panics). -/
def recvIn {α : Type} (grow : Nat → Nat) (s : UnboundedChan α) : Option (UnboundedChan α) :=
  match s.in_.buf with
  | e :: rest => some (innerLoop (appendQ grow { s with in_ := { s.in_ with buf := rest } } e))
  | [] => if s.in_.closed then some { s with fault := some .misuseInClosed } else none

/-- The case `<-ch.close` of either `select`: ready when a caller of `Close()`
is blocked in its send (that caller then returns) or when `close` has been
closed; the relay goes on to `ch.closed()`. -/
def recvClose {α : Type} (s : UnboundedChan α) : Option (UnboundedChan α) :=
  if 0 < s.closeWaiting then some { s with closeWaiting := s.closeWaiting - 1, pc := .closedEntry }
  else if s.closeClosed then some { s with pc := .closedEntry }
  else none

/-- The case `ch.out <- ch.q[0]` of the inner `select`, with its body
`ch.q = ch.q[1:]` (length and capacity both drop by one) and the return to the
head of the inner loop.  The guard `len(ch.q) > 0` of the loop keeps `q`
non-empty at this `select`, so the case is never ready with an empty `q`. -/
def sendOut {α : Type} (s : UnboundedChan α) : Option (UnboundedChan α) :=
  match s.q with
  | [] => none
  | e :: rest =>
    if s.out.closed then some { s with fault := some .sendOnClosedChannel }
    else if s.out.buf.length < slotCap then
      some (innerLoop { s with out := { s.out with buf := s.out.buf ++ [e] }, q := rest, qcap := s.qcap - 1 })
    else none

/-- One statement of `closed()`:
`closedEntry` is `close(ch.in)`; `closedDrain` one iteration of
`for e := range ch.in`; `closedFlush` one iteration of the loop
`for len(ch.q) > 0 { select { case ch.out <- ch.q[0]: ...; default: } }`;
`closeOut` is `close(ch.out)`; `closeSignal` is `close(ch.close)` (callers of
`Close()` still blocked in their send then panic) and the return. -/
def closed {α : Type} (grow : Nat → Nat) (s : UnboundedChan α) : Option (UnboundedChan α) :=
  match s.pc with
  | .closedEntry =>
    if s.in_.closed then some { s with fault := some .closeOfClosedChannel }
    else some { s with in_ := { s.in_ with closed := true }, pc := .closedDrain }
  | .closedDrain =>
    match s.in_.buf with
    | e :: rest => some (appendQ grow { s with in_ := { s.in_ with buf := rest } } e)
    | [] => if s.in_.closed then some { s with pc := .closedFlush } else none
  | .closedFlush =>
    match s.q with
    | [] => some { s with pc := .closeOut }
    | e :: rest =>
      if s.out.closed then some { s with fault := some .sendOnClosedChannel }
      else if s.out.buf.length < slotCap then
        some { s with out := { s.out with buf := s.out.buf ++ [e] }, q := rest, qcap := s.qcap - 1 }
      else some s
  | .closeOut =>
    if s.out.closed then some { s with fault := some .closeOfClosedChannel }
    else some { s with out := { s.out with closed := true }, pc := .closeSignal }
  | .closeSignal =>
    if s.closeClosed then some { s with fault := some .closeOfClosedChannel }
    else if 0 < s.closeWaiting then
      some { s with closeClosed := true, pc := .returned, fault := some .sendOnClosedChannel }
    else some { s with closeClosed := true, pc := .returned }
  | _ => none

/-- One step of the relay goroutine `processing()` that picks case `c`; `none`
when that case is not ready at the current program point. -/
def processing {α : Type} (grow : Nat → Nat) (c : Choice) (s : UnboundedChan α) :
    Option (UnboundedChan α) :=
  match s.pc, c with
  | .outerSelect, .recvIn => recvIn grow s
  | .outerSelect, .recvClose => recvClose s
  | .innerSelect, .sendOut => sendOut s
  | .innerSelect, .recvIn => recvIn grow s
  | .innerSelect, .recvClose => recvClose s
  | .closedEntry, .next => closed grow s
  | .closedDrain, .next => closed grow s
  | .closedFlush, .next => closed grow s
  | .closeOut, .next => closed grow s
  | .closeSignal, .next => closed grow s
  | _, _ => none

/-- A producer's `ch.In() <- v`: panics on a closed channel, blocks (`none`)
while the buffer is full. -/
def sendIn {α : Type} (v : α) (s : UnboundedChan α) : Option (UnboundedChan α) :=
  if s.in_.closed then some { s with fault := some .sendOnClosedChannel }
  else if s.in_.buf.length < slotCap then some { s with in_ := { s.in_ with buf := s.in_.buf ++ [v] } }
  else none

/-- The consumer's `v, hasValue := <-ch.Out()`: takes the oldest value; on an
empty buffer it returns `hasValue = false` if `out` is closed and blocks
(`none`) otherwise. -/
def recvOut {α : Type} (s : UnboundedChan α) : Option (UnboundedChan α) :=
  match s.out.buf with
  | _ :: rest => some { s with out := { s.out with buf := rest } }
  | [] => if s.out.closed then some s else none

/-- The method `Close()`, that is `ch.close <- struct{}{}`: the caller starts to wait in
the send on the unbuffered channel, or panics if it is closed. -/
def Close {α : Type} (s : UnboundedChan α) : Option (UnboundedChan α) :=
  if s.closeClosed then some { s with fault := some .sendOnClosedChannel }
  else some { s with closeWaiting := s.closeWaiting + 1 }

/-- A raw `close(ch.In())` by a client. -/
def closeIn {α : Type} (s : UnboundedChan α) : Option (UnboundedChan α) :=
  if s.in_.closed then some { s with fault := some .closeOfClosedChannel }
  else some { s with in_ := { s.in_ with closed := true } }

/-- The transition function: `none` when the event is not enabled.  Nothing is
enabled once a panic has ended the program. -/
def step {α : Type} (grow : Nat → Nat) (e : Event α) (s : UnboundedChan α) :
    Option (UnboundedChan α) :=
  if s.fault.isSome then none
  else
    match e with
    | .send v => sendIn v s
    | .recv => recvOut s
    | .callClose => Close s
    | .closeIn => closeIn s
    | .relay c => processing grow c s

/-- Runs a trace; `none` when some event of it is not enabled. -/
def exec {α : Type} (grow : Nat → Nat) : UnboundedChan α → List (Event α) → Option (UnboundedChan α)
  | s, [] => some s
  | s, e :: es =>
    match step grow e s with
    | none => none
    | some s1 => exec grow s1 es

/-- What the consumer sees at an event taken in state `s`: a receive yields
`some v` (value `v`, `hasValue = true`) or `none` (`hasValue = false`). -/
def resultAt {α : Type} (s : UnboundedChan α) : Event α → List (Option α)
  | .recv => [s.out.buf.head?]
  | _ => []

/-- The value an event taken in state `s` puts into the input slot. -/
def acceptedAt {α : Type} (s : UnboundedChan α) : Event α → List α
  | .send v => if s.in_.closed then [] else [v]
  | _ => []

/-- The results of the consumer's receives along a trace, in order. -/
def recvResults {α : Type} (grow : Nat → Nat) : UnboundedChan α → List (Event α) → List (Option α)
  | _, [] => []
  | s, e :: es =>
    match step grow e s with
    | none => []
    | some s1 => resultAt s e ++ recvResults grow s1 es

/-- The values accepted into the input slot along a trace, in order. -/
def accepted {α : Type} (grow : Nat → Nat) : UnboundedChan α → List (Event α) → List α
  | _, [] => []
  | s, e :: es =>
    match step grow e s with
    | none => []
    | some s1 => acceptedAt s e ++ accepted grow s1 es

/-- The values received along a trace, in order. -/
def received {α : Type} (grow : Nat → Nat) (s : UnboundedChan α) (tr : List (Event α)) : List α :=
  (recvResults grow s tr).filterMap id

/-- A slice growth for the concrete runs (the runtime's own is not part of the
repository and is a parameter everywhere else). -/
def doubling (c : Nat) : Nat := 2 * c + 1

/-- The values held in the pipeline, oldest first: `out`, then `q`, then `in`. -/
def held {α : Type} (s : UnboundedChan α) : List α :=
  s.out.buf ++ s.q ++ s.in_.buf

/-- State invariant of the reachable states. -/
structure Inv {α : Type} (s : UnboundedChan α) : Prop where
  outer : s.pc = .outerSelect → s.q = [] ∧ 32 ≤ s.qcap
  inner : s.pc = .innerSelect → s.q ≠ []
  outClosed : s.out.closed = true → s.pc = .closeSignal ∨ s.pc = .returned
  sigClosed : s.closeClosed = true → s.pc = .returned
  flushed : s.pc = .closeOut ∨ s.pc = .closeSignal ∨ s.pc = .returned → s.q = []
  drained : s.pc = .closedFlush ∨ s.pc = .closeOut ∨ s.pc = .closeSignal ∨ s.pc = .returned →
    s.in_.buf = []
  inClosed : s.pc = .closedDrain ∨ s.pc = .closedFlush ∨ s.pc = .closeOut ∨ s.pc = .closeSignal ∨
    s.pc = .returned → s.in_.closed = true
  inLen : s.in_.buf.length ≤ slotCap
  outLen : s.out.buf.length ≤ slotCap
  outDone : s.pc = .closeSignal ∨ s.pc = .returned → s.out.closed = true
  sigDone : s.pc = .returned → s.closeClosed = true

/-- The values of the send events of a trace, in order. -/
def sends {α : Type} : List (Event α) → List α
  | [] => []
  | .send v :: es => v :: sends es
  | _ :: es => sends es

/-- Events of the phase in which the producer submits: sends and relay steps. -/
def producerPhase {α : Type} : Event α → Bool
  | .send _ => true
  | .relay _ => true
  | _ => false

/-- Events of the phase in which the consumer receives: receives and relay steps. -/
def consumerPhase {α : Type} : Event α → Bool
  | .recv => true
  | .relay _ => true
  | _ => false

/-- A schedule of a burst: each value is sent and then taken by the relay. -/
def submitAll {α : Type} : List α → List (Event α)
  | [] => []
  | x :: xs => .send x :: .relay .recvIn :: submitAll xs

/-- A schedule of the flush loop of `closed()` against a consumer: `n` times one
iteration of the loop and one receive. -/
def flushAll {α : Type} : Nat → List (Event α)
  | 0 => []
  | n + 1 => .relay .next :: .recv :: flushAll n

/-- A schedule of the shutdown after `Close()` was called with `n` values in `q`:
the relay takes the close signal, runs `closed()` while the consumer receives
the `n` values, returns, and the consumer receives `k` more times. -/
def closeAndDrain {α : Type} (n k : Nat) : List (Event α) :=
  .relay .recvClose :: .relay .next :: .relay .next ::
    (flushAll n ++ (.relay .next :: .relay .next :: .relay .next :: List.replicate k .recv))

/-- The relay is in its loop and nothing has been closed or requested to close:
the states of a run that consists of sends, receives and relay steps only. -/
structure Running {α : Type} (s : UnboundedChan α) : Prop where
  noFault : s.fault = none
  inOpen : s.in_.closed = false
  outOpen : s.out.closed = false
  noCloser : s.closeWaiting = 0
  sigOpen : s.closeClosed = false
  atSelect : s.pc = .outerSelect ∨ s.pc = .innerSelect

/-- One round of a trace that fills `out`: value `v` is sent, taken by the relay
and handed to `out`. -/
def fillRound (v : Nat) : List (Event Nat) :=
  [.send v, .relay .recvIn, .relay .sendOut]

/-- A run with no consumer: 1 to 16 go through to `out`, 17 stays in `q` because
`out` is full, then `Close()` is called and the relay runs `closed()` up to its
flush loop. -/
def fillThenClose : List (Event Nat) :=
  ((List.range 16).map (· + 1)).flatMap fillRound ++
    [.send 17, .relay .recvIn, .callClose, .relay .recvClose, .relay .next, .relay .next]

/-- The state `fillThenClose` ends in: the relay in the flush loop of `closed()`,
`out` full, 17 in `q`. -/
def stuckFlush : UnboundedChan Nat :=
  ⟨⟨[], true⟩, ⟨[1, 2, 3, 4, 5, 6, 7, 8, 9, 10, 11, 12, 13, 14, 15, 16], false⟩, 0, false,
    [17], 1008, .closedFlush, none⟩

/-- The number of relay steps of a trace. -/
def relaySteps {α : Type} : List (Event α) → Nat
  | [] => 0
  | .relay _ :: es => relaySteps es + 1
  | _ :: es => relaySteps es

/-- Events that run next to the relay without a client panic of their own after
a raw close of `In()`: receives, calls of `Close()`, relay steps. -/
def besideRelay {α : Type} : Event α → Bool
  | .recv => true
  | .callClose => true
  | .relay _ => true
  | _ => false

/-- The number of steps the relay can still take once `in` is closed under it. -/
def misuseBound {α : Type} (s : UnboundedChan α) : Nat :=
  match s.fault with
  | some _ => 0
  | none => 2 * s.in_.buf.length + s.q.length + (if s.pc = .closedEntry then 1 else 2)

/-- The relay state after a raw close of `In()`: `in` closed while the relay is in
its loop or just entering `closed()`, and the only panics are the misuse panic
and the runtime's close of a closed channel. -/
structure Misused {α : Type} (s : UnboundedChan α) : Prop where
  inClosed : s.in_.closed = true
  atLoop : s.pc = .outerSelect ∨ s.pc = .innerSelect ∨ s.pc = .closedEntry
  faults : ∀ f, s.fault = some f → f = .misuseInClosed ∨ f = .closeOfClosedChannel

/-- As `Misused`, with no `Close()` requested: the relay stays in its loop and
the only panic is the misuse panic. -/
structure MisusedQuiet {α : Type} (s : UnboundedChan α) : Prop where
  noCloser : s.closeWaiting = 0
  atSelect : s.pc = .outerSelect ∨ s.pc = .innerSelect
  faults : ∀ f, s.fault = some f → f = .misuseInClosed

/-- The relay has left its loop: it is in `closed()` or has returned. -/
def Entered {α : Type} (s : UnboundedChan α) : Prop :=
  s.pc ≠ .outerSelect ∧ s.pc ≠ .innerSelect

/-- How far the relay is from the end of its run: 6 in its loop, then one less
for each statement of `closed()` passed, 0 once returned. -/
def PC.rank : PC → Nat
  | .outerSelect => 6
  | .innerSelect => 6
  | .closedEntry => 5
  | .closedDrain => 4
  | .closedFlush => 3
  | .closeOut => 2
  | .closeSignal => 1
  | .returned => 0

/-- The work left in a shutdown: every value still has to move from `in` to `q`,
from `q` to `out` and from `out` to the consumer, and the relay has to reach
its end. -/
def workLeft {α : Type} (s : UnboundedChan α) : Nat :=
  3 * s.in_.buf.length + 2 * s.q.length + s.out.buf.length + s.pc.rank

/-- The states of a shutdown requested by one call of `Close()` with no other
client left: no panic; while the relay is in its loop the caller waits and
`in` is open; once the relay has entered `closed()` nobody waits. -/
structure Closing {α : Type} (s : UnboundedChan α) : Prop where
  noFault : s.fault = none
  atSelect : s.pc = .outerSelect ∨ s.pc = .innerSelect → s.closeWaiting = 1 ∧ s.in_.closed = false
  afterSelect : Entered s → s.closeWaiting = 0
  entryOpen : s.pc = .closedEntry → s.in_.closed = false

end Async

/-!
## Composite font face (`internal/painter/font.go`)

The methods of the interfaces `ttfFont` and `font.Face` may read and change
state of their own (glyph caches); a method is therefore a function from the
state `σ` before the call to its result and the state after it.  A nil
interface value is `none`; calling a method of a nil face is a nil
dereference, the `none` result of the composite's methods.  The mutex only
serialises the calls and has no sequential effect.
-/

namespace Painter

/-- Go's `image.Point` and `fixed.Point26_6`. -/
structure Point where
  X : Int
  Y : Int
deriving DecidableEq, Repr

/-- Go's `image.Rectangle` and `fixed.Rectangle26_6`. -/
structure Rectangle where
  Min : Point
  Max : Point
deriving DecidableEq, Repr

/-- The interface `ttfFont`: `Index(rune) truetype.Index`. -/
structure ttfFont (σ : Type) where
  Index : Int → σ → Nat × σ

/-- The results of `font.Face.Glyph`. -/
structure GlyphResult (Img : Type) where
  dr : Rectangle
  mask : Option Img
  maskp : Point
  advance : Int
  ok : Bool

/-- The results of `font.Face.GlyphAdvance`. -/
structure AdvanceResult where
  advance : Int
  ok : Bool
deriving DecidableEq, Repr

/-- The results of `font.Face.GlyphBounds`. -/
structure BoundsResult where
  bounds : Rectangle
  advance : Int
  ok : Bool
deriving DecidableEq, Repr

/-- The three glyph methods of the interface `font.Face`. -/
structure Face (σ Img : Type) where
  Glyph : Point → Int → σ → GlyphResult Img × σ
  GlyphAdvance : Int → σ → AdvanceResult × σ
  GlyphBounds : Int → σ → BoundsResult × σ

/-- The struct `compositeFace`. -/
structure compositeFace (σ Img : Type) where
  chosen : Option (Face σ Img)
  fallback : Option (Face σ Img)
  chosenFont : Option (ttfFont σ)
  fallbackFont : Option (ttfFont σ)

/-- The zero values that the named results hold at a bare `return`. -/
def GlyphResult.zero (Img : Type) : GlyphResult Img :=
  ⟨⟨⟨0, 0⟩, ⟨0, 0⟩⟩, none, ⟨0, 0⟩, 0, false⟩

/-- Zero value of the results of `GlyphAdvance`. -/
def AdvanceResult.zero : AdvanceResult := ⟨0, false⟩

/-- Zero value of the results of `GlyphBounds`. -/
def BoundsResult.zero : BoundsResult := ⟨⟨⟨0, 0⟩, ⟨0, 0⟩⟩, 0, false⟩

/-- The method `containsGlyph`: `font != nil && font.Index(r) != 0`; `Index` is called only
on a non-nil font. -/
def containsGlyph {σ : Type} (font : Option (ttfFont σ)) (r : Int) (w : σ) : Bool × σ :=
  match font with
  | none => (false, w)
  | some f => ((f.Index r w).1 != 0, (f.Index r w).2)

/-- The method `compositeFace.Glyph`. -/
def compositeFace.Glyph {σ Img : Type} (c : compositeFace σ Img) (dot : Point) (r : Int)
    (w : σ) : Option (GlyphResult Img × σ) :=
  let chosenContainsGlyph := containsGlyph c.chosenFont r w
  let fallbackContainsGlyph :=
    if !chosenContainsGlyph.1 then containsGlyph c.fallbackFont r chosenContainsGlyph.2
    else (false, chosenContainsGlyph.2)
  if chosenContainsGlyph.1 then
    c.chosen.map (fun face => face.Glyph dot r fallbackContainsGlyph.2)
  else if fallbackContainsGlyph.1 then
    c.fallback.map (fun face => face.Glyph dot r fallbackContainsGlyph.2)
  else some (GlyphResult.zero Img, fallbackContainsGlyph.2)

/-- The method `compositeFace.GlyphAdvance`. -/
def compositeFace.GlyphAdvance {σ Img : Type} (c : compositeFace σ Img) (r : Int) (w : σ) :
    Option (AdvanceResult × σ) :=
  let chosenContainsGlyph := containsGlyph c.chosenFont r w
  let fallbackContainsGlyph :=
    if !chosenContainsGlyph.1 then containsGlyph c.fallbackFont r chosenContainsGlyph.2
    else (false, chosenContainsGlyph.2)
  if chosenContainsGlyph.1 then
    c.chosen.map (fun face => face.GlyphAdvance r fallbackContainsGlyph.2)
  else if fallbackContainsGlyph.1 then
    c.fallback.map (fun face => face.GlyphAdvance r fallbackContainsGlyph.2)
  else some (AdvanceResult.zero, fallbackContainsGlyph.2)

/-- The method `compositeFace.GlyphBounds`. -/
def compositeFace.GlyphBounds {σ Img : Type} (c : compositeFace σ Img) (r : Int) (w : σ) :
    Option (BoundsResult × σ) :=
  let chosenContainsGlyph := containsGlyph c.chosenFont r w
  let fallbackContainsGlyph :=
    if !chosenContainsGlyph.1 then containsGlyph c.fallbackFont r chosenContainsGlyph.2
    else (false, chosenContainsGlyph.2)
  if chosenContainsGlyph.1 then
    c.chosen.map (fun face => face.GlyphBounds r fallbackContainsGlyph.2)
  else if fallbackContainsGlyph.1 then
    c.fallback.map (fun face => face.GlyphBounds r fallbackContainsGlyph.2)
  else some (BoundsResult.zero, fallbackContainsGlyph.2)

/-- A font for the concrete runs: it has index `idx` for every rune and records
each call of `Index` by putting `tag` in front of the state, a log of calls. -/
def logFont (tag idx : Nat) : ttfFont (List Nat) :=
  ⟨fun _ w => (idx, tag :: w)⟩

/-- A face for the concrete runs: every glyph has advance `adv`. -/
def constFace (adv : Int) : Face (List Nat) Unit :=
  ⟨fun _ _ w => (⟨⟨⟨0, 0⟩, ⟨0, 0⟩⟩, none, ⟨0, 0⟩, adv, true⟩, w),
    fun _ w => (⟨adv, true⟩, w),
    fun _ w => (⟨⟨⟨0, 0⟩, ⟨0, 0⟩⟩, adv, true⟩, w)⟩

/-- A composite for the concrete runs: both fonts contain every rune. -/
def bothFace : compositeFace (List Nat) Unit :=
  ⟨some (constFace 7), some (constFace 9), some (logFont 1 5), some (logFont 2 6)⟩

end Painter

namespace Async

variable {α : Type}

theorem inv_new : Inv (NewUnboundedChan α) := by
  constructor <;> simp [NewUnboundedChan, slotCap]

theorem innerLoop_q (s : UnboundedChan α) : (innerLoop s).q = s.q := by
  unfold innerLoop
  split
  · rfl
  · have hq : s.q = [] := List.length_eq_zero.mp (by omega)
    split <;> simp [hq]

theorem innerLoop_rest (s : UnboundedChan α) :
    (innerLoop s).in_ = s.in_ ∧ (innerLoop s).out = s.out ∧ (innerLoop s).fault = s.fault ∧
      (innerLoop s).closeWaiting = s.closeWaiting ∧ (innerLoop s).closeClosed = s.closeClosed := by
  unfold innerLoop
  split
  · simp
  · split <;> simp

theorem innerLoop_held (s : UnboundedChan α) : held (innerLoop s) = held s := by
  simp [held, innerLoop_q, innerLoop_rest]

theorem held_processing (grow : Nat → Nat) (c : Choice) (s s1 : UnboundedChan α)
    (hs : processing grow c s = some s1) : held s1 = held s := by
  have hin : ∀ t : UnboundedChan α, recvIn grow s = some t → held t = held s := by
    intro t ht
    unfold recvIn at ht
    split at ht
    · rename_i e rest hb
      cases ht
      rw [innerLoop_held]
      simp [held, appendQ, hb]
    · split at ht
      · cases ht; rfl
      · simp at ht
  have hcl : ∀ t : UnboundedChan α, recvClose s = some t → held t = held s := by
    intro t ht
    unfold recvClose at ht
    split at ht
    · cases ht; rfl
    · split at ht
      · cases ht; rfl
      · simp at ht
  have hout : ∀ t : UnboundedChan α, sendOut s = some t → held t = held s := by
    intro t ht
    unfold sendOut at ht
    split at ht
    · simp at ht
    · rename_i e rest hb
      split at ht
      · cases ht; rfl
      · split at ht
        · cases ht
          rw [innerLoop_held]
          simp [held, hb]
        · simp at ht
  have hcd : ∀ t : UnboundedChan α, closed grow s = some t → held t = held s := by
    intro t ht
    unfold closed at ht
    split at ht
    · split at ht <;> cases ht <;> rfl
    · split at ht
      · rename_i e rest hb
        cases ht
        simp [held, appendQ, hb]
      · split at ht
        · cases ht; rfl
        · simp at ht
    · split at ht
      · cases ht; rfl
      · rename_i e rest hb
        split at ht
        · cases ht; rfl
        · split at ht
          · cases ht
            simp [held, hb]
          · cases ht; rfl
    · split at ht <;> cases ht <;> rfl
    · split at ht
      · cases ht; rfl
      · split at ht <;> cases ht <;> rfl
    · simp at ht
  unfold processing at hs
  split at hs
  · exact hin _ hs
  · exact hcl _ hs
  · exact hout _ hs
  · exact hin _ hs
  · exact hcl _ hs
  · exact hcd _ hs
  · exact hcd _ hs
  · exact hcd _ hs
  · exact hcd _ hs
  · exact hcd _ hs
  · simp at hs

theorem held_step (grow : Nat → Nat) (e : Event α) (s s1 : UnboundedChan α)
    (hs : step grow e s = some s1) :
    held s ++ acceptedAt s e = (resultAt s e).filterMap id ++ held s1 := by
  unfold step at hs
  split at hs
  · simp at hs
  · cases e with
    | relay c => simp [acceptedAt, resultAt, held_processing grow c s s1 hs]
    | send v =>
      simp only [sendIn] at hs
      split at hs
      · rename_i hc
        cases hs
        simp [acceptedAt, resultAt, hc, held]
      · rename_i hc
        split at hs
        · cases hs
          simp [acceptedAt, resultAt, hc, held]
        · simp at hs
    | recv =>
      simp only [recvOut] at hs
      split at hs
      · rename_i v rest hb
        cases hs
        simp [acceptedAt, resultAt, held, hb]
      · rename_i hb
        split at hs
        · cases hs
          simp [acceptedAt, resultAt, hb]
        · simp at hs
    | callClose =>
      simp only [Close] at hs
      split at hs <;> cases hs <;> simp [acceptedAt, resultAt, held]
    | closeIn =>
      simp only [closeIn] at hs
      split at hs <;> cases hs <;> simp [acceptedAt, resultAt, held]

theorem held_exec (grow : Nat → Nat) (tr : List (Event α)) :
    ∀ s s1 : UnboundedChan α, exec grow s tr = some s1 →
      held s ++ accepted grow s tr = received grow s tr ++ held s1 := by
  induction tr with
  | nil =>
    intro s s1 h
    simp [exec] at h
    simp [accepted, received, recvResults, h]
  | cons e es ih =>
    intro s s1 h
    simp only [exec] at h
    cases hst : step grow e s with
    | none => simp [hst] at h
    | some s2 =>
      simp only [hst] at h
      have h1 := held_step grow e s s2 hst
      have h2 := ih s2 s1 h
      simp only [accepted, received, recvResults, hst, List.filterMap_append]
      simp only [received] at h2
      rw [← List.append_assoc, h1, List.append_assoc, h2, List.append_assoc]

theorem inv_recvIn (grow : Nat → Nat) (s s1 : UnboundedChan α) (h : Inv s)
    (hpc : s.pc = .outerSelect ∨ s.pc = .innerSelect) (hs : recvIn grow s = some s1) :
    Inv s1 := by
  obtain ⟨h1, h2, h3, h4, h5, h6, h7, h8, h9, h10, h11⟩ := h
  obtain ⟨⟨ib, ic⟩, ⟨ob, oc⟩, w, cc, q, cap, pc, f⟩ := s
  cases ib with
  | nil =>
    cases ic <;> simp [recvIn] at hs
    subst hs
    constructor <;> simp_all
  | cons e rest =>
    simp [recvIn, innerLoop, appendQ] at hs
    subst hs
    constructor <;> simp_all
    rcases hpc with rfl | rfl <;> simp_all <;> omega

theorem inv_recvClose (s s1 : UnboundedChan α) (h : Inv s)
    (hpc : s.pc = .outerSelect ∨ s.pc = .innerSelect) (hs : recvClose s = some s1) :
    Inv s1 := by
  obtain ⟨h1, h2, h3, h4, h5, h6, h7, h8, h9, h10, h11⟩ := h
  obtain ⟨⟨ib, ic⟩, ⟨ob, oc⟩, w, cc, q, cap, pc, f⟩ := s
  simp only [recvClose] at hs
  by_cases hw : 0 < w
  · simp [hw] at hs
    subst hs
    rcases hpc with rfl | rfl <;> constructor <;> simp_all
  · cases cc
    · simp [hw] at hs
    · rcases hpc with rfl | rfl <;> simp_all

theorem inv_sendOut (s s1 : UnboundedChan α) (h : Inv s)
    (hpc : s.pc = .innerSelect) (hs : sendOut s = some s1) : Inv s1 := by
  obtain ⟨h1, h2, h3, h4, h5, h6, h7, h8, h9, h10, h11⟩ := h
  obtain ⟨⟨ib, ic⟩, ⟨ob, oc⟩, w, cc, q, cap, pc, f⟩ := s
  simp only at hpc
  subst hpc
  cases q with
  | nil => simp [sendOut] at hs
  | cons e rest =>
    cases oc
    · by_cases hl : ob.length < slotCap
      · cases rest with
        | nil =>
          by_cases hc : cap - 1 < 32
          · simp [sendOut, hl, innerLoop, hc] at hs
            subst hs
            constructor <;> simp_all [slotCap]; omega
          · simp [sendOut, hl, innerLoop, hc] at hs
            subst hs
            constructor <;> simp_all [slotCap]; omega
        | cons e2 r2 =>
          simp [sendOut, hl, innerLoop] at hs
          subst hs
          constructor <;> simp_all [slotCap]; omega
      · simp [sendOut, hl] at hs
    · simp at h3

theorem inv_closed (grow : Nat → Nat) (s s1 : UnboundedChan α) (h : Inv s)
    (hs : closed grow s = some s1) : Inv s1 := by
  obtain ⟨h1, h2, h3, h4, h5, h6, h7, h8, h9, h10, h11⟩ := h
  obtain ⟨⟨ib, ic⟩, ⟨ob, oc⟩, w, cc, q, cap, pc, f⟩ := s
  cases pc
  case outerSelect => simp [closed] at hs
  case innerSelect => simp [closed] at hs
  case returned => simp [closed] at hs
  case closedEntry =>
    cases ic <;> simp [closed] at hs <;> subst hs <;> constructor <;> simp_all
  case closedDrain =>
    cases ib with
    | nil => cases ic <;> simp [closed] at hs; subst hs; constructor <;> simp_all
    | cons e rest =>
      simp [closed, appendQ] at hs
      subst hs
      constructor <;> simp_all
      omega
  case closedFlush =>
    cases q with
    | nil => simp [closed] at hs; subst hs; constructor <;> simp_all
    | cons e rest =>
      cases oc
      · by_cases hl : ob.length < slotCap
        · simp [closed, hl] at hs
          subst hs
          constructor <;> simp_all
          omega
        · simp [closed, hl] at hs
          subst hs
          constructor <;> simp_all
      · simp at h3
  case closeOut =>
    cases oc <;> simp [closed] at hs <;> subst hs <;> constructor <;> simp_all
  case closeSignal =>
    cases cc
    · by_cases hw : 0 < w
      · simp [closed, hw] at hs
        subst hs
        constructor <;> simp_all
      · simp [closed, hw] at hs
        subst hs
        constructor <;> simp_all
    · simp at h4

theorem inv_processing (grow : Nat → Nat) (c : Choice) (s s1 : UnboundedChan α) (h : Inv s)
    (hs : processing grow c s = some s1) : Inv s1 := by
  unfold processing at hs
  split at hs
  · exact inv_recvIn grow s s1 h (Or.inl (by assumption)) hs
  · exact inv_recvClose s s1 h (Or.inl (by assumption)) hs
  · exact inv_sendOut s s1 h (by assumption) hs
  · exact inv_recvIn grow s s1 h (Or.inr (by assumption)) hs
  · exact inv_recvClose s s1 h (Or.inr (by assumption)) hs
  · exact inv_closed grow s s1 h hs
  · exact inv_closed grow s s1 h hs
  · exact inv_closed grow s s1 h hs
  · exact inv_closed grow s s1 h hs
  · exact inv_closed grow s s1 h hs
  · simp at hs

theorem inv_step (grow : Nat → Nat) (e : Event α) (s s1 : UnboundedChan α)
    (h : Inv s) (hs : step grow e s = some s1) : Inv s1 := by
  unfold step at hs
  split at hs
  · simp at hs
  · cases e with
    | relay c => exact inv_processing grow c s s1 h hs
    | send v =>
      obtain ⟨h1, h2, h3, h4, h5, h6, h7, h8, h9, h10, h11⟩ := h
      obtain ⟨⟨ib, ic⟩, ⟨ob, oc⟩, w, cc, q, cap, pc, f⟩ := s
      simp only [sendIn] at hs
      split at hs
      · cases hs; constructor <;> simp_all
      · split at hs
        · cases hs; constructor <;> simp_all [slotCap]; omega
        · simp at hs
    | recv =>
      obtain ⟨h1, h2, h3, h4, h5, h6, h7, h8, h9, h10, h11⟩ := h
      obtain ⟨⟨ib, ic⟩, ⟨ob, oc⟩, w, cc, q, cap, pc, f⟩ := s
      simp only [recvOut] at hs
      split at hs
      · cases hs; constructor <;> simp_all; omega
      · split at hs
        · cases hs; constructor <;> simp_all
        · simp at hs
    | callClose =>
      obtain ⟨h1, h2, h3, h4, h5, h6, h7, h8, h9, h10, h11⟩ := h
      obtain ⟨⟨ib, ic⟩, ⟨ob, oc⟩, w, cc, q, cap, pc, f⟩ := s
      simp only [Close] at hs
      split at hs <;> cases hs <;> constructor <;> simp_all
    | closeIn =>
      obtain ⟨h1, h2, h3, h4, h5, h6, h7, h8, h9, h10, h11⟩ := h
      obtain ⟨⟨ib, ic⟩, ⟨ob, oc⟩, w, cc, q, cap, pc, f⟩ := s
      simp only [closeIn] at hs
      split at hs <;> cases hs <;> constructor <;> simp_all

theorem inv_exec (grow : Nat → Nat) (tr : List (Event α)) :
    ∀ s s1 : UnboundedChan α, Inv s → exec grow s tr = some s1 → Inv s1 := by
  induction tr with
  | nil =>
    intro s s1 hi h
    simp [exec] at h
    exact h ▸ hi
  | cons e es ih =>
    intro s s1 hi h
    simp only [exec] at h
    cases hst : step grow e s with
    | none => simp [hst] at h
    | some s2 =>
      simp only [hst] at h
      exact ih s2 s1 (inv_step grow e s s2 hi hst) h

theorem out_terminal_step (grow : Nat → Nat) (e : Event α) (s s1 : UnboundedChan α)
    (h : Inv s) (hc : s.out.closed = true) (hb : s.out.buf = [])
    (hs : step grow e s = some s1) :
    s1.out = s.out ∧ ∀ r ∈ resultAt s e, r = none := by
  have hpc := h.outClosed hc
  unfold step at hs
  split at hs
  · simp at hs
  · cases e with
    | relay c =>
      refine ⟨?_, by simp [resultAt]⟩
      rcases hpc with hpc | hpc
      · cases c <;> simp only [processing, hpc] at hs <;> try (simp at hs)
        have hcc : s.closeClosed = false := by
          cases hcc : s.closeClosed
          · rfl
          · have := h.sigClosed hcc
            simp [hpc] at this
        simp only [closed, hpc, hcc] at hs
        split at hs
        · rename_i hf
          simp at hf
        · split at hs <;> cases hs <;> rfl
      · cases c <;> simp [processing, hpc] at hs
    | send v =>
      refine ⟨?_, by simp [resultAt]⟩
      simp only [sendIn] at hs
      split at hs
      · cases hs; rfl
      · split at hs
        · cases hs; rfl
        · simp at hs
    | recv =>
      simp only [recvOut, hb, hc] at hs
      simp at hs
      subst hs
      simp [resultAt, hb]
    | callClose =>
      refine ⟨?_, by simp [resultAt]⟩
      simp only [Close] at hs
      split at hs <;> cases hs <;> rfl
    | closeIn =>
      refine ⟨?_, by simp [resultAt]⟩
      simp only [closeIn] at hs
      split at hs <;> cases hs <;> rfl

theorem out_terminal_exec (grow : Nat → Nat) (tr : List (Event α)) :
    ∀ s s1 : UnboundedChan α, Inv s → s.out.closed = true → s.out.buf = [] →
      exec grow s tr = some s1 →
      s1.out = s.out ∧ ∀ r ∈ recvResults grow s tr, r = none := by
  induction tr with
  | nil =>
    intro s s1 _ _ _ h
    simp [exec] at h
    simp [recvResults, h]
  | cons e es ih =>
    intro s s1 hi hc hb h
    simp only [exec] at h
    cases hst : step grow e s with
    | none => simp [hst] at h
    | some s2 =>
      simp only [hst] at h
      obtain ⟨ho, hr⟩ := out_terminal_step grow e s s2 hi hc hb hst
      obtain ⟨ho2, hr2⟩ := ih s2 s1 (inv_step grow e s s2 hi hst) (by rw [ho]; exact hc)
        (by rw [ho]; exact hb) h
      refine ⟨ho2.trans ho, ?_⟩
      intro r hrm
      simp only [recvResults, hst, List.mem_append] at hrm
      rcases hrm with hrm | hrm
      · exact hr r hrm
      · exact hr2 r hrm

theorem results_shape (grow : Nat → Nat) (tr : List (Event α)) :
    ∀ s s1 : UnboundedChan α, Inv s → exec grow s tr = some s1 →
      ∃ m, recvResults grow s tr = (received grow s tr).map some ++ List.replicate m none ∧
        (0 < m → s1.out.closed = true ∧ s1.out.buf = []) := by
  induction tr with
  | nil =>
    intro s s1 _ _
    exact ⟨0, by simp [recvResults, received], by simp⟩
  | cons e es ih =>
    intro s s1 hi h
    have hall := h
    simp only [exec] at h
    cases hst : step grow e s with
    | none => simp [hst] at h
    | some s2 =>
      simp only [hst] at h
      obtain ⟨m, hm, hm2⟩ := ih s2 s1 (inv_step grow e s s2 hi hst) h
      by_cases hrecv : e = Event.recv
      · subst hrecv
        cases hb : s.out.buf with
        | nil =>
          have hc : s.out.closed = true := by
            have h0 := hst
            unfold step at h0
            split at h0
            · simp at h0
            · simp only [recvOut, hb] at h0
              split at h0
              · assumption
              · simp at h0
          obtain ⟨ho, hr⟩ := out_terminal_exec grow (Event.recv :: es) s s1 hi hc hb hall
          refine ⟨(recvResults grow s (Event.recv :: es)).length, ?_, ?_⟩
          · have hnil : received grow s (Event.recv :: es) = [] := by
              simp only [received, List.filterMap_eq_nil_iff]
              intro a ha
              simp [hr a ha]
            rw [hnil]
            simpa using List.eq_replicate_length.mpr hr
          · intro _
            rw [ho]
            exact ⟨hc, hb⟩
        | cons v rest =>
          refine ⟨m, ?_, hm2⟩
          simp only [recvResults, received, hst, resultAt, hb, List.filterMap_append]
          simp only [received] at hm
          simpa using hm
      · refine ⟨m, ?_, hm2⟩
        have hres : resultAt s e = [] := by
          cases e <;> simp_all [resultAt]
        simp only [recvResults, received, hst, hres, List.nil_append]
        simpa [received] using hm

/-- C1: in every state reachable from `NewUnboundedChan` (by any trace of
producer sends, relay steps, consumer receives, and also calls of `Close()`),
the values accepted into the input slot, in acceptance order, are the values
received followed by the contents of `out`, of `q` and of `in`; so the values
received are always a leading segment of the accepted ones, in the same
order, with none duplicated or lost. -/
theorem C1_pipeline_fifo (grow : Nat → Nat) (tr : List (Event α)) (s : UnboundedChan α)
    (h : exec grow (NewUnboundedChan α) tr = some s) :
    accepted grow (NewUnboundedChan α) tr =
        received grow (NewUnboundedChan α) tr ++ s.out.buf ++ s.q ++ s.in_.buf ∧
      received grow (NewUnboundedChan α) tr <+: accepted grow (NewUnboundedChan α) tr := by
  have hh := held_exec grow tr _ s h
  have h0 : held (NewUnboundedChan α) = [] := rfl
  rw [h0, List.nil_append] at hh
  refine ⟨by simpa [held, List.append_assoc] using hh, ⟨held s, hh.symm⟩⟩

/-- Witness of C1: two producers' values 1, 2, 3 with a relay step and a
receive in between. -/
theorem C1_pipeline_fifo_witness :
    accepted doubling (NewUnboundedChan Nat)
        [.send 1, .send 2, .relay .recvIn, .relay .sendOut, .send 3, .recv] = [1, 2, 3] ∧
      received doubling (NewUnboundedChan Nat)
        [.send 1, .send 2, .relay .recvIn, .relay .sendOut, .send 3, .recv] = [1] ∧
      accepted doubling (NewUnboundedChan Nat)
        [.send 1, .send 2, .relay .recvIn, .relay .sendOut, .send 3, .recv] =
        received doubling (NewUnboundedChan Nat)
          [.send 1, .send 2, .relay .recvIn, .relay .sendOut, .send 3, .recv] ++ [] ++ [] ++ [2, 3] :=
  ⟨by decide, by decide,
    (C1_pipeline_fifo doubling [.send 1, .send 2, .relay .recvIn, .relay .sendOut, .send 3, .recv]
      { in_ := ⟨[2, 3], false⟩, out := ⟨[], false⟩, closeWaiting := 0, closeClosed := false,
        q := [], qcap := 1023, pc := .outerSelect, fault := none } (by decide)).1⟩

/-- C4: once a receive on `Out()` has returned `hasValue = false` (it was
enabled with `out` empty, hence closed), every receive of every continuation
also returns `hasValue = false`, and no transition changes the output slot:
it stays closed and empty. -/
theorem C4_terminal_stability (grow : Nat → Nat) (tr1 tr2 : List (Event α))
    (s s1 s2 : UnboundedChan α)
    (h1 : exec grow (NewUnboundedChan α) tr1 = some s)
    (hrecv : step grow Event.recv s = some s1) (hnone : resultAt s Event.recv = [none])
    (h2 : exec grow s1 tr2 = some s2) :
    (∀ r ∈ recvResults grow s1 tr2, r = none) ∧ s2.out.closed = true ∧ s2.out.buf = [] := by
  have hi := inv_exec grow tr1 _ s inv_new h1
  have hb : s.out.buf = [] := by
    cases hb : s.out.buf with
    | nil => rfl
    | cons v rest => simp [resultAt, hb] at hnone
  have hc : s.out.closed = true := by
    have h0 := hrecv
    unfold step at h0
    split at h0
    · simp at h0
    · simp only [recvOut, hb] at h0
      split at h0
      · assumption
      · simp at h0
  obtain ⟨ho, _⟩ := out_terminal_step grow Event.recv s s1 hi hc hb hrecv
  have hi1 := inv_step grow Event.recv s s1 hi hrecv
  obtain ⟨ho2, hr⟩ := out_terminal_exec grow tr2 s1 s2 hi1 (by rw [ho]; exact hc)
    (by rw [ho]; exact hb) h2
  exact ⟨hr, by rw [ho2, ho]; exact hc, by rw [ho2, ho]; exact hb⟩

theorem exec_append (grow : Nat → Nat) (a b : List (Event α)) :
    ∀ s : UnboundedChan α, exec grow s (a ++ b) = (exec grow s a).bind (fun t => exec grow t b) := by
  induction a with
  | nil => intro s; simp [exec]
  | cons e es ih =>
    intro s
    simp only [List.cons_append, exec]
    cases step grow e s with
    | none => simp
    | some t => simp [ih t]

theorem recvResults_append (grow : Nat → Nat) (a b : List (Event α)) :
    ∀ s t : UnboundedChan α, exec grow s a = some t →
      recvResults grow s (a ++ b) = recvResults grow s a ++ recvResults grow t b := by
  induction a with
  | nil => intro s t h; simp [exec] at h; simp [recvResults, h]
  | cons e es ih =>
    intro s t h
    simp only [exec] at h
    cases hst : step grow e s with
    | none => simp [hst] at h
    | some u =>
      simp only [hst] at h
      simp [recvResults, hst, ih u t h]

theorem accepted_append (grow : Nat → Nat) (a b : List (Event α)) :
    ∀ s t : UnboundedChan α, exec grow s a = some t →
      accepted grow s (a ++ b) = accepted grow s a ++ accepted grow t b := by
  induction a with
  | nil => intro s t h; simp [exec] at h; simp [accepted, h]
  | cons e es ih =>
    intro s t h
    simp only [exec] at h
    cases hst : step grow e s with
    | none => simp [hst] at h
    | some u =>
      simp only [hst] at h
      simp [accepted, hst, ih u t h]

theorem running_new : Running (NewUnboundedChan α) := by
  constructor <;> simp [NewUnboundedChan]

theorem innerLoop_pc (s : UnboundedChan α) :
    (innerLoop s).pc = .outerSelect ∨ (innerLoop s).pc = .innerSelect := by
  unfold innerLoop
  split
  · simp
  · split <;> simp

theorem running_innerLoop (t : UnboundedChan α) (hf : t.fault = none)
    (hi : t.in_.closed = false) (ho : t.out.closed = false) (hw : t.closeWaiting = 0)
    (hc : t.closeClosed = false) : Running (innerLoop t) := by
  have hr := innerLoop_rest t
  exact ⟨by rw [hr.2.2.1]; exact hf, by rw [hr.1]; exact hi, by rw [hr.2.1]; exact ho,
    by rw [hr.2.2.2.1]; exact hw, by rw [hr.2.2.2.2]; exact hc, innerLoop_pc _⟩

theorem running_step (grow : Nat → Nat) (e : Event α) (s s1 : UnboundedChan α)
    (h : Running s) (he : producerPhase e = true ∨ e = Event.recv)
    (hs : step grow e s = some s1) :
    Running s1 ∧ acceptedAt s e = sends [e] := by
  obtain ⟨hf, hi, ho, hw, hc, hpc⟩ := h
  unfold step at hs
  split at hs
  · simp at hs
  · cases e with
    | send v =>
      simp only [sendIn, hi] at hs
      split at hs
      · rename_i hh; simp at hh
      · split at hs
        · cases hs
          exact ⟨by constructor <;> simp_all, by simp [acceptedAt, hi, sends]⟩
        · simp at hs
    | recv =>
      refine ⟨?_, by simp [acceptedAt, sends]⟩
      simp only [recvOut] at hs
      split at hs
      · cases hs; constructor <;> simp_all
      · split at hs
        · cases hs; constructor <;> simp_all
        · simp at hs
    | callClose => simp [producerPhase] at he
    | closeIn => simp [producerPhase] at he
    | relay c =>
      refine ⟨?_, by simp [acceptedAt, sends]⟩
      have hin : ∀ t : UnboundedChan α, recvIn grow s = some t → Running t := by
        intro t ht
        unfold recvIn at ht
        split at ht
        · cases ht
          exact running_innerLoop _ (by simpa [appendQ] using hf) (by simpa [appendQ] using hi)
            (by simpa [appendQ] using ho) (by simpa [appendQ] using hw)
            (by simpa [appendQ] using hc)
        · simp [hi] at ht
      have hcl : ∀ t : UnboundedChan α, recvClose s = some t → Running t := by
        intro t ht
        simp [recvClose, hw, hc] at ht
      have hout : ∀ t : UnboundedChan α, sendOut s = some t → Running t := by
        intro t ht
        unfold sendOut at ht
        split at ht
        · simp at ht
        · simp only [ho] at ht
          split at ht
          · rename_i hh; simp at hh
          · split at ht
            · cases ht
              exact running_innerLoop _ (by simpa using hf) (by simpa using hi)
                (by simp) (by simpa using hw) (by simpa using hc)
            · simp at ht
      change processing grow c s = some s1 at hs
      unfold processing at hs
      split at hs
      · exact hin _ hs
      · exact hcl _ hs
      · exact hout _ hs
      · exact hin _ hs
      · exact hcl _ hs
      all_goals (rcases hpc with hpc | hpc <;> simp_all)

theorem running_exec (grow : Nat → Nat) (tr : List (Event α)) :
    ∀ s s1 : UnboundedChan α, Running s → (∀ e ∈ tr, producerPhase e = true ∨ e = Event.recv) →
      exec grow s tr = some s1 → Running s1 ∧ accepted grow s tr = sends tr := by
  induction tr with
  | nil =>
    intro s s1 hr _ h
    simp [exec] at h
    exact ⟨h ▸ hr, by simp [accepted, sends]⟩
  | cons e es ih =>
    intro s s1 hr hp h
    simp only [exec] at h
    cases hst : step grow e s with
    | none => simp [hst] at h
    | some s2 =>
      simp only [hst] at h
      obtain ⟨hr2, ha⟩ := running_step grow e s s2 hr (hp e (by simp)) hst
      obtain ⟨hr3, ha3⟩ := ih s2 s1 hr2 (fun x hx => hp x (by simp [hx])) h
      refine ⟨hr3, ?_⟩
      simp only [accepted, hst, ha, ha3]
      cases e <;> simp [sends]

theorem accepted_of_sends_nil (grow : Nat → Nat) (tr : List (Event α)) :
    ∀ s : UnboundedChan α, sends tr = [] → accepted grow s tr = [] := by
  induction tr with
  | nil => intro s _; simp [accepted]
  | cons e es ih =>
    intro s h
    simp only [accepted]
    cases hst : step grow e s with
    | none => rfl
    | some s2 =>
      cases e <;> simp_all [sends, acceptedAt]

theorem sends_consumerPhase (tr : List (Event α)) (h : ∀ e ∈ tr, consumerPhase e = true) :
    sends tr = [] := by
  induction tr with
  | nil => rfl
  | cons e es ih =>
    have he := h e (by simp)
    cases e <;> simp_all [sends, consumerPhase]

theorem held_nil_of_closed (s : UnboundedChan α) (hi : Inv s) (hc : s.out.closed = true)
    (hb : s.out.buf = []) : held s = [] := by
  have hpc := hi.outClosed hc
  have hq := hi.flushed (Or.inr hpc)
  have hin := hi.drained (Or.inr (Or.inr hpc))
  simp [held, hb, hq, hin]

theorem submit_then_close_safe (grow : Nat → Nat) (p1 p2 : List (Event α))
    (s : UnboundedChan α)
    (hp1 : ∀ e ∈ p1, producerPhase e = true) (hp2 : ∀ e ∈ p2, consumerPhase e = true)
    (h : exec grow (NewUnboundedChan α) (p1 ++ Event.callClose :: p2) = some s) :
    ∃ j m, recvResults grow (NewUnboundedChan α) (p1 ++ Event.callClose :: p2) =
        ((sends p1).take j).map some ++ List.replicate m none ∧ (0 < m → j = (sends p1).length) := by
  have hsplit := exec_append grow p1 (Event.callClose :: p2) (NewUnboundedChan α)
  rw [h] at hsplit
  cases h1 : exec grow (NewUnboundedChan α) p1 with
  | none => simp [h1] at hsplit
  | some t =>
    have hacc1 := (running_exec grow p1 _ t running_new (fun e he => Or.inl (hp1 e he)) h1).2
    have hacc2 : accepted grow t (Event.callClose :: p2) = [] :=
      accepted_of_sends_nil grow _ t (by simp [sends, sends_consumerPhase p2 hp2])
    have hacc : accepted grow (NewUnboundedChan α) (p1 ++ Event.callClose :: p2) = sends p1 := by
      rw [accepted_append grow p1 _ _ t h1, hacc1, hacc2, List.append_nil]
    have hh := held_exec grow _ _ s h
    have h0 : held (NewUnboundedChan α) = [] := rfl
    rw [h0, List.nil_append, hacc] at hh
    obtain ⟨m, hm, hm2⟩ := results_shape grow _ _ s inv_new h
    refine ⟨(received grow (NewUnboundedChan α) (p1 ++ Event.callClose :: p2)).length, m, ?_, ?_⟩
    · rw [hh, List.take_left, hm]
    · intro hpos
      obtain ⟨hc, hb⟩ := hm2 hpos
      have hi := inv_exec grow _ _ s inv_new h
      rw [held_nil_of_closed s hi hc hb, List.append_nil] at hh
      rw [hh]

theorem exec_submitAll (grow : Nat → Nat) (o : Chan α) (w : Nat) (xs : List α) :
    ∀ (q : List α) (c : Nat) (pc : PC), pc = .outerSelect ∨ pc = .innerSelect →
      ∃ c1 pc1, (pc1 = .outerSelect ∨ pc1 = .innerSelect) ∧
        exec grow ⟨⟨[], false⟩, o, w, false, q, c, pc, none⟩ (submitAll xs) =
          some ⟨⟨[], false⟩, o, w, false, q ++ xs, c1, pc1, none⟩ := by
  induction xs with
  | nil =>
    intro q c pc hpc
    exact ⟨c, pc, hpc, by simp [submitAll, exec]⟩
  | cons x xs ih =>
    intro q c pc hpc
    obtain ⟨c1, pc1, hpc1, h1⟩ := ih (q ++ [x]) (if q.length < c then c else grow c) .innerSelect
      (Or.inr rfl)
    refine ⟨c1, pc1, hpc1, ?_⟩
    rcases hpc with rfl | rfl <;>
      simpa [submitAll, exec, step, sendIn, slotCap, processing, recvIn, innerLoop, appendQ]
        using h1

theorem recvResults_submitAll (grow : Nat → Nat) (xs : List α) :
    ∀ s : UnboundedChan α, recvResults grow s (submitAll xs) = [] := by
  induction xs with
  | nil => intro s; simp [submitAll, recvResults]
  | cons x xs ih =>
    intro s
    simp only [submitAll, recvResults]
    cases step grow (Event.send x) s with
    | none => rfl
    | some t =>
      simp only [resultAt, List.nil_append]
      cases step grow (Event.relay Choice.recvIn) t with
      | none => rfl
      | some u => simp [ih u]

theorem run_flushAll (grow : Nat → Nat) (w : Nat) (q : List α) :
    ∀ c : Nat,
      exec grow ⟨⟨[], true⟩, ⟨[], false⟩, w, false, q, c, .closedFlush, none⟩ (flushAll q.length) =
          some ⟨⟨[], true⟩, ⟨[], false⟩, w, false, [], c - q.length, .closedFlush, none⟩ ∧
        recvResults grow ⟨⟨[], true⟩, ⟨[], false⟩, w, false, q, c, .closedFlush, none⟩
          (flushAll q.length) = q.map some := by
  induction q with
  | nil => intro c; simp [flushAll, exec, recvResults]
  | cons x xs ih =>
    intro c
    obtain ⟨h1, h2⟩ := ih (c - 1)
    constructor
    · simp only [List.length_cons, flushAll, exec]
      simp [step, processing, closed, slotCap, recvOut]
      rw [h1]
      simp
      omega
    · simp only [List.length_cons, flushAll, recvResults]
      simp [step, processing, closed, slotCap, recvOut, resultAt]
      exact h2

theorem run_recvs_closed (grow : Nat → Nat) (t : UnboundedChan α) (hf : t.fault = none)
    (hb : t.out.buf = []) (hc : t.out.closed = true) (k : Nat) :
    exec grow t (List.replicate k Event.recv) = some t ∧
      recvResults grow t (List.replicate k Event.recv) = List.replicate k none := by
  have hstep : step grow Event.recv t = some t := by
    simp [step, hf, recvOut, hb, hc]
  induction k with
  | zero => simp [exec, recvResults]
  | succ k ih =>
    simp only [List.replicate_succ, exec, recvResults, hstep, resultAt, hb]
    exact ⟨ih.1, by simp [ih.2]⟩

theorem run_closeAndDrain (grow : Nat → Nat) (xs : List α) (c : Nat) (pc : PC)
    (hpc : pc = .outerSelect ∨ pc = .innerSelect) (k : Nat) :
    exec grow ⟨⟨[], false⟩, ⟨[], false⟩, 0, false, xs, c, pc, none⟩
        (Event.callClose :: closeAndDrain xs.length k) =
        some ⟨⟨[], true⟩, ⟨[], true⟩, 0, true, [], c - xs.length, .returned, none⟩ ∧
      recvResults grow ⟨⟨[], false⟩, ⟨[], false⟩, 0, false, xs, c, pc, none⟩
        (Event.callClose :: closeAndDrain xs.length k) =
        xs.map some ++ List.replicate k none := by
  obtain ⟨hf1, hf2⟩ := run_flushAll grow 0 xs c
  obtain ⟨hr1, hr2⟩ := run_recvs_closed grow
    (⟨⟨[], true⟩, ⟨[], true⟩, 0, true, [], c - xs.length, .returned, none⟩ : UnboundedChan α)
    rfl rfl rfl k
  have htail : exec grow
        (⟨⟨[], true⟩, ⟨[], false⟩, 0, false, [], c - xs.length, .closedFlush, none⟩ : UnboundedChan α)
      (Event.relay .next :: Event.relay .next :: Event.relay .next :: List.replicate k Event.recv) =
      some ⟨⟨[], true⟩, ⟨[], true⟩, 0, true, [], c - xs.length, .returned, none⟩ ∧
      recvResults grow
        (⟨⟨[], true⟩, ⟨[], false⟩, 0, false, [], c - xs.length, .closedFlush, none⟩ : UnboundedChan α)
      (Event.relay .next :: Event.relay .next :: Event.relay .next :: List.replicate k Event.recv) =
      List.replicate k none := by
    constructor
    · simpa [exec, step, processing, closed] using hr1
    · simpa [recvResults, step, processing, closed, resultAt] using hr2
  have hmid : exec grow ⟨⟨[], true⟩, ⟨[], false⟩, 0, false, xs, c, .closedFlush, none⟩
      (flushAll xs.length ++
        (Event.relay .next :: Event.relay .next :: Event.relay .next :: List.replicate k Event.recv)) =
      some ⟨⟨[], true⟩, ⟨[], true⟩, 0, true, [], c - xs.length, .returned, none⟩ ∧
      recvResults grow ⟨⟨[], true⟩, ⟨[], false⟩, 0, false, xs, c, .closedFlush, none⟩
      (flushAll xs.length ++
        (Event.relay .next :: Event.relay .next :: Event.relay .next :: List.replicate k Event.recv)) =
      xs.map some ++ List.replicate k none := by
    constructor
    · rw [exec_append, hf1]
      exact htail.1
    · rw [recvResults_append grow _ _ _ _ hf1, hf2, htail.2]
  constructor
  · rcases hpc with rfl | rfl <;>
      simpa [closeAndDrain, exec, step, Close, processing, recvClose, closed] using hmid.1
  · rcases hpc with rfl | rfl <;>
      simpa [closeAndDrain, recvResults, step, Close, processing, recvClose, closed, resultAt]
        using hmid.2

theorem submit_then_close_live (grow : Nat → Nat) (xs : List α) (k : Nat) :
    (∃ s, exec grow (NewUnboundedChan α)
        (submitAll xs ++ Event.callClose :: closeAndDrain xs.length k) = some s ∧
        s.pc = .returned ∧ s.fault = none) ∧
      recvResults grow (NewUnboundedChan α)
        (submitAll xs ++ Event.callClose :: closeAndDrain xs.length k) =
        xs.map some ++ List.replicate k none := by
  obtain ⟨c1, pc1, hpc1, h1⟩ := exec_submitAll grow (⟨[], false⟩ : Chan α) 0 xs [] 1024
    .outerSelect (Or.inl rfl)
  have h1a : exec grow (NewUnboundedChan α) (submitAll xs) =
      some ⟨⟨[], false⟩, ⟨[], false⟩, 0, false, xs, c1, pc1, none⟩ := by
    simpa [NewUnboundedChan] using h1
  obtain ⟨h2, h3⟩ := run_closeAndDrain grow xs c1 pc1 hpc1 k
  constructor
  · refine ⟨⟨⟨[], true⟩, ⟨[], true⟩, 0, true, [], c1 - xs.length, .returned, none⟩, ?_, rfl, rfl⟩
    rw [exec_append, h1a]
    exact h2
  · rw [recvResults_append grow _ _ _ _ h1a, recvResults_submitAll, h3, List.nil_append]

theorem submitAll_shape (xs : List α) :
    (∀ e ∈ submitAll xs, producerPhase e = true) ∧ sends (submitAll xs) = xs := by
  induction xs with
  | nil => simp [submitAll, sends]
  | cons x xs ih =>
    constructor
    · intro e he
      simp only [submitAll, List.mem_cons] at he
      rcases he with rfl | rfl | he
      · rfl
      · rfl
      · exact ih.1 e he
    · simp [submitAll, sends, ih.2]

theorem closeAndDrain_shape (n k : Nat) :
    ∀ e ∈ (closeAndDrain n k : List (Event α)), consumerPhase e = true := by
  have hfl : ∀ n : Nat, ∀ e ∈ (flushAll n : List (Event α)), consumerPhase e = true := by
    intro n
    induction n with
    | zero => simp [flushAll]
    | succ n ih =>
      intro e he
      simp only [flushAll, List.mem_cons] at he
      rcases he with rfl | rfl | he
      · rfl
      · rfl
      · exact ih e he
  intro e he
  simp only [closeAndDrain, List.mem_cons, List.mem_append, List.mem_replicate] at he
  rcases he with rfl | rfl | rfl | he | rfl | rfl | rfl | ⟨_, rfl⟩
  all_goals first | rfl | exact hfl n e he

theorem workLeft_innerLoop (t : UnboundedChan α) :
    workLeft (innerLoop t) = 3 * t.in_.buf.length + 2 * t.q.length + t.out.buf.length + 6 := by
  have hr := innerLoop_rest t
  have hq := innerLoop_q t
  unfold workLeft
  rw [hr.1, hr.2.1, hq]
  rcases innerLoop_pc t with h | h <;> simp [h, PC.rank]

theorem closing_innerLoop (t : UnboundedChan α) (hf : t.fault = none)
    (hw : t.closeWaiting = 1) (hc : t.in_.closed = false) : Closing (innerLoop t) := by
  have hr := innerLoop_rest t
  refine ⟨by rw [hr.2.2.1]; exact hf, fun _ => ⟨by rw [hr.2.2.2.1]; exact hw, by rw [hr.1]; exact hc⟩,
    ?_, ?_⟩
  · intro he
    rcases innerLoop_pc t with h | h
    · exact absurd h he.1
    · exact absurd h he.2
  · intro he
    rcases innerLoop_pc t with h | h <;> simp [h] at he

theorem closing_step (grow : Nat → Nat) (e : Event α) (s s1 : UnboundedChan α)
    (hi : Inv s) (hcl : Closing s) (he : consumerPhase e = true)
    (hs : step grow e s = some s1) :
    Closing s1 ∧ workLeft s1 ≤ workLeft s := by
  obtain ⟨hf, hsel, haft, hent⟩ := hcl
  unfold step at hs
  split at hs
  · simp at hs
  · cases e with
    | send v => simp [consumerPhase] at he
    | closeIn => simp [consumerPhase] at he
    | callClose => simp [consumerPhase] at he
    | recv =>
      simp only [recvOut] at hs
      split at hs
      · rename_i v rest hb
        cases hs
        exact ⟨⟨hf, hsel, haft, hent⟩, by simp [workLeft, hb]⟩
      · split at hs
        · cases hs
          exact ⟨⟨hf, hsel, haft, hent⟩, Nat.le_refl _⟩
        · simp at hs
    | relay c =>
      have hin : ∀ t : UnboundedChan α, s.pc = .outerSelect ∨ s.pc = .innerSelect →
          recvIn grow s = some t → Closing t ∧ workLeft t ≤ workLeft s := by
        intro t hpc ht
        obtain ⟨hw, hio⟩ := hsel hpc
        unfold recvIn at ht
        split at ht
        · rename_i e rest hb
          cases ht
          refine ⟨closing_innerLoop _ (by simpa [appendQ] using hf) (by simpa [appendQ] using hw)
            (by simpa [appendQ] using hio), ?_⟩
          rw [workLeft_innerLoop]
          have : s.pc.rank = 6 := by rcases hpc with h | h <;> simp [h, PC.rank]
          simp [appendQ, workLeft, hb, this]
          omega
        · simp [hio] at ht
      have hclose : ∀ t : UnboundedChan α, s.pc = .outerSelect ∨ s.pc = .innerSelect →
          recvClose s = some t → Closing t ∧ workLeft t ≤ workLeft s := by
        intro t hpc ht
        obtain ⟨hw, hio⟩ := hsel hpc
        simp only [recvClose, hw] at ht
        simp at ht
        subst ht
        refine ⟨⟨hf, by simp, fun _ => rfl, fun _ => hio⟩, ?_⟩
        have : s.pc.rank = 6 := by rcases hpc with h | h <;> simp [h, PC.rank]
        unfold workLeft
        rw [this]
        simp [PC.rank]
      have hout : ∀ t : UnboundedChan α, s.pc = .innerSelect →
          sendOut s = some t → Closing t ∧ workLeft t ≤ workLeft s := by
        intro t hpc ht
        obtain ⟨hw, hio⟩ := hsel (Or.inr hpc)
        have hoc : s.out.closed = false := by
          cases hoc : s.out.closed
          · rfl
          · have := hi.outClosed hoc
            simp [hpc] at this
        unfold sendOut at ht
        split at ht
        · simp at ht
        · rename_i e rest hb
          split at ht
          · rename_i hh; simp [hoc] at hh
          · split at ht
            · cases ht
              refine ⟨closing_innerLoop _ (by simpa using hf) (by simpa using hw)
                (by simpa using hio), ?_⟩
              rw [workLeft_innerLoop]
              simp [workLeft, hb, hpc, PC.rank]
              omega
            · simp at ht
      have hcd : ∀ t : UnboundedChan α, Entered s →
          closed grow s = some t → Closing t ∧ workLeft t ≤ workLeft s := by
        intro t hen ht
        have hw := haft hen
        have hoc : s.pc = .closedFlush ∨ s.pc = .closeOut → s.out.closed = false := by
          intro hp
          cases hoc : s.out.closed
          · rfl
          · have := hi.outClosed hoc
            rcases hp with h | h <;> simp [h] at this
        have hcc : s.pc = .closeSignal → s.closeClosed = false := by
          intro hp
          cases hcc : s.closeClosed
          · rfl
          · have := hi.sigClosed hcc
            simp [hp] at this
        unfold closed at ht
        split at ht
        · rename_i hp
          simp only [hent hp] at ht
          simp at ht
          subst ht
          exact ⟨⟨hf, by simp, fun _ => hw, by simp⟩, by simp [workLeft, hp, PC.rank]⟩
        · rename_i hp
          split at ht
          · rename_i e rest hb
            cases ht
            exact ⟨⟨hf, by simp [appendQ, hp], fun _ => hw, by simp [appendQ, hp]⟩,
              by simp [workLeft, appendQ, hb]; omega⟩
          · simp only [hi.inClosed (Or.inl hp), if_true] at ht
            cases ht
            exact ⟨⟨hf, by simp, fun _ => hw, by simp⟩, by simp [workLeft, hp, PC.rank]⟩
        · rename_i hp
          split at ht
          · cases ht
            exact ⟨⟨hf, by simp, fun _ => hw, by simp⟩, by simp [workLeft, hp, PC.rank]⟩
          · rename_i e rest hb
            simp only [hoc (Or.inl hp)] at ht
            split at ht
            · rename_i hh; simp at hh
            · split at ht
              · cases ht
                exact ⟨⟨hf, by simp [hp], fun _ => hw, by simp [hp]⟩,
                  by simp [workLeft, hb]; omega⟩
              · cases ht
                exact ⟨⟨hf, hsel, haft, hent⟩, Nat.le_refl _⟩
        · rename_i hp
          simp only [hoc (Or.inr hp)] at ht
          simp at ht
          subst ht
          exact ⟨⟨hf, by simp, fun _ => hw, by simp⟩, by simp [workLeft, hp, PC.rank]⟩
        · rename_i hp
          simp only [hcc hp, hw] at ht
          simp at ht
          subst ht
          exact ⟨⟨hf, by simp, fun _ => rfl, by simp⟩, by simp [workLeft, hp, PC.rank]⟩
        · simp at ht
      change processing grow c s = some s1 at hs
      unfold processing at hs
      split at hs
      · rename_i hp; exact hin _ (Or.inl hp) hs
      · rename_i hp; exact hclose _ (Or.inl hp) hs
      · rename_i hp; exact hout _ hp hs
      · rename_i hp; exact hin _ (Or.inr hp) hs
      · rename_i hp; exact hclose _ (Or.inr hp) hs
      · rename_i hp; exact hcd _ (by simp [Entered, hp]) hs
      · rename_i hp; exact hcd _ (by simp [Entered, hp]) hs
      · rename_i hp; exact hcd _ (by simp [Entered, hp]) hs
      · rename_i hp; exact hcd _ (by simp [Entered, hp]) hs
      · rename_i hp; exact hcd _ (by simp [Entered, hp]) hs
      · simp at hs


theorem closing_progress (grow : Nat → Nat) (s : UnboundedChan α) (hi : Inv s)
    (hcl : Closing s) :
    (s.pc = .returned ∧ s.out.buf = [] ∧ s.out.closed = true) ∨
      ∃ e s1, consumerPhase e = true ∧ step grow e s = some s1 ∧ workLeft s1 < workLeft s := by
  obtain ⟨hf, hsel, haft, hent⟩ := hcl
  obtain ⟨⟨ib, ic⟩, ⟨ob, oc⟩, w, cc, q, c, pc, f⟩ := s
  simp only at hf hsel haft hent
  subst hf
  cases pc
  case outerSelect =>
    obtain ⟨hw, hio⟩ := hsel (Or.inl rfl)
    subst hw hio
    exact Or.inr ⟨Event.relay .recvClose,
      ⟨⟨ib, false⟩, ⟨ob, oc⟩, 0, cc, q, c, .closedEntry, none⟩, rfl,
      by simp [step, processing, recvClose], by simp [workLeft, PC.rank]⟩
  case innerSelect =>
    obtain ⟨hw, hio⟩ := hsel (Or.inr rfl)
    subst hw hio
    exact Or.inr ⟨Event.relay .recvClose,
      ⟨⟨ib, false⟩, ⟨ob, oc⟩, 0, cc, q, c, .closedEntry, none⟩, rfl,
      by simp [step, processing, recvClose], by simp [workLeft, PC.rank]⟩
  case closedEntry =>
    have hio := hent rfl
    subst hio
    exact Or.inr ⟨Event.relay .next,
      ⟨⟨ib, true⟩, ⟨ob, oc⟩, w, cc, q, c, .closedDrain, none⟩, rfl,
      by simp [step, processing, closed], by simp [workLeft, PC.rank]⟩
  case closedDrain =>
    have hic : ic = true := hi.inClosed (Or.inl rfl)
    subst hic
    cases ib with
    | nil =>
      exact Or.inr ⟨Event.relay .next,
        ⟨⟨[], true⟩, ⟨ob, oc⟩, w, cc, q, c, .closedFlush, none⟩, rfl,
        by simp [step, processing, closed], by simp [workLeft, PC.rank]⟩
    | cons x rest =>
      exact Or.inr ⟨Event.relay .next,
        ⟨⟨rest, true⟩, ⟨ob, oc⟩, w, cc, q ++ [x], if q.length < c then c else grow c,
          .closedDrain, none⟩, rfl,
        by simp [step, processing, closed, appendQ], by simp [workLeft, PC.rank]; omega⟩
  case closedFlush =>
    have hoc : oc = false := by
      cases oc
      · rfl
      · have := hi.outClosed rfl
        simp at this
    subst hoc
    cases q with
    | nil =>
      exact Or.inr ⟨Event.relay .next,
        ⟨⟨ib, ic⟩, ⟨ob, false⟩, w, cc, [], c, .closeOut, none⟩, rfl,
        by simp [step, processing, closed], by simp [workLeft, PC.rank]⟩
    | cons x rest =>
      by_cases hl : ob.length < slotCap
      · exact Or.inr ⟨Event.relay .next,
          ⟨⟨ib, ic⟩, ⟨ob ++ [x], false⟩, w, cc, rest, c - 1, .closedFlush, none⟩, rfl,
          by simp [step, processing, closed, hl], by simp [workLeft, PC.rank]; omega⟩
      · cases ob with
        | nil => simp [slotCap] at hl
        | cons y ys =>
          exact Or.inr ⟨Event.recv,
            ⟨⟨ib, ic⟩, ⟨ys, false⟩, w, cc, x :: rest, c, .closedFlush, none⟩, rfl,
            by simp [step, recvOut], by simp [workLeft, PC.rank]⟩
  case closeOut =>
    have hoc : oc = false := by
      cases oc
      · rfl
      · have := hi.outClosed rfl
        simp at this
    subst hoc
    exact Or.inr ⟨Event.relay .next,
      ⟨⟨ib, ic⟩, ⟨ob, true⟩, w, cc, q, c, .closeSignal, none⟩, rfl,
      by simp [step, processing, closed], by simp [workLeft, PC.rank]⟩
  case closeSignal =>
    have hcc : cc = false := by
      cases cc
      · rfl
      · have := hi.sigClosed rfl
        simp at this
    have hw : w = 0 := haft (by simp [Entered])
    subst hcc hw
    exact Or.inr ⟨Event.relay .next,
      ⟨⟨ib, ic⟩, ⟨ob, oc⟩, 0, true, q, c, .returned, none⟩, rfl,
      by simp [step, processing, closed], by simp [workLeft, PC.rank]⟩
  case returned =>
    cases ob with
    | nil => exact Or.inl ⟨rfl, rfl, hi.outDone (Or.inr rfl)⟩
    | cons y ys =>
      exact Or.inr ⟨Event.recv,
        ⟨⟨ib, ic⟩, ⟨ys, oc⟩, w, cc, q, c, .returned, none⟩, rfl,
        by simp [step, recvOut], by simp [workLeft, PC.rank]⟩

theorem closing_exec (grow : Nat → Nat) (tr : List (Event α)) :
    ∀ s s1 : UnboundedChan α, Inv s → Closing s → (∀ e ∈ tr, consumerPhase e = true) →
      exec grow s tr = some s1 → Closing s1 ∧ workLeft s1 ≤ workLeft s := by
  induction tr with
  | nil =>
    intro s s1 _ hc _ h
    simp [exec] at h
    subst h
    exact ⟨hc, Nat.le_refl _⟩
  | cons e es ih =>
    intro s s1 hi hc hp h
    simp only [exec] at h
    cases hst : step grow e s with
    | none => simp [hst] at h
    | some s2 =>
      simp only [hst] at h
      obtain ⟨hc2, hw2⟩ := closing_step grow e s s2 hi hc (hp e (by simp)) hst
      obtain ⟨hc3, hw3⟩ := ih s2 s1 (inv_step grow e s s2 hi hst) hc2
        (fun x hx => hp x (by simp [hx])) h
      exact ⟨hc3, Nat.le_trans hw3 hw2⟩

theorem closing_of_running (grow : Nat → Nat) (s s1 : UnboundedChan α) (hr : Running s)
    (hs : step grow Event.callClose s = some s1) : Closing s1 := by
  obtain ⟨hf, hi, ho, hw, hc, hpc⟩ := hr
  simp only [step, hf, Close, hc] at hs
  simp at hs
  subst hs
  refine ⟨rfl, fun _ => ⟨by simp [hw], hi⟩, ?_, ?_⟩
  · intro he
    rcases hpc with h | h
    · exact absurd h he.1
    · exact absurd h he.2
  · intro he
    rcases hpc with h | h <;> simp [h] at he

theorem submit_then_close_progress (grow : Nat → Nat) (p1 p2 : List (Event α))
    (s : UnboundedChan α)
    (hp1 : ∀ e ∈ p1, producerPhase e = true) (hp2 : ∀ e ∈ p2, consumerPhase e = true)
    (h : exec grow (NewUnboundedChan α) (p1 ++ Event.callClose :: p2) = some s) :
    ((s.pc = .returned ∧ s.out.buf = [] ∧ s.out.closed = true ∧
        received grow (NewUnboundedChan α) (p1 ++ Event.callClose :: p2) = sends p1) ∨
      ∃ e s1, consumerPhase e = true ∧ step grow e s = some s1 ∧ workLeft s1 < workLeft s) ∧
    (∀ e s1, consumerPhase e = true → step grow e s = some s1 → workLeft s1 ≤ workLeft s) := by
  have hsplit := exec_append grow p1 (Event.callClose :: p2) (NewUnboundedChan α)
  rw [h] at hsplit
  cases h1 : exec grow (NewUnboundedChan α) p1 with
  | none => simp [h1] at hsplit
  | some t =>
    rw [h1, Option.some_bind] at hsplit
    have hrun := running_exec grow p1 _ t running_new (fun e he => Or.inl (hp1 e he)) h1
    have hit := inv_exec grow p1 _ t inv_new h1
    simp only [exec] at hsplit
    cases h2 : step grow Event.callClose t with
    | none => simp [h2] at hsplit
    | some u =>
      simp only [h2] at hsplit
      have hcu := closing_of_running grow t u hrun.1 h2
      have hiu := inv_step grow _ t u hit h2
      have hcs := (closing_exec grow p2 u s hiu hcu hp2 hsplit.symm).1
      have his := inv_exec grow p2 u s hiu hsplit.symm
      refine ⟨?_, fun e s1 he hs => (closing_step grow e s s1 his hcs he hs).2⟩
      rcases closing_progress grow s his hcs with ⟨hret, hb, hc⟩ | hstep
      · refine Or.inl ⟨hret, hb, hc, ?_⟩
        have hacc2 : accepted grow t (Event.callClose :: p2) = [] :=
          accepted_of_sends_nil grow _ t (by simp [sends, sends_consumerPhase p2 hp2])
        have hh := held_exec grow _ _ s h
        have h0 : held (NewUnboundedChan α) = [] := rfl
        rw [h0, List.nil_append, accepted_append grow p1 _ _ t h1, hrun.2, hacc2,
          List.append_nil, held_nil_of_closed s his hc hb, List.append_nil] at hh
        exact hh.symm
      · exact Or.inr hstep

/-- C2: a producer submits `xs` to a fresh queue and then calls `Close()`, the
consumer receives only afterwards.  In every such run (any interleaving with
the relay's steps, any choice of its `select`s) the results of the successive
receives are a leading part of `xs`, each with `hasValue = true`, followed by
results with `hasValue = false`, and a `false` comes only after all of `xs`.
Every such run can go on: either it is complete (the relay has returned, `out`
is closed and empty, exactly `xs` has been received) or a receive or relay
step is enabled that lowers the work left, which no receive or relay step
raises; so the runs that keep taking such steps complete.  And for every `k`
the run in which the relay takes each value at once and then shuts down ends
with the relay returned, no panic, and the receives returning exactly `xs`
in order followed by `k` times `hasValue = false`. -/
theorem C2_submit_then_close (grow : Nat → Nat) (xs : List α) :
    (∀ (p1 p2 : List (Event α)) (s : UnboundedChan α),
      (∀ e ∈ p1, producerPhase e = true) → sends p1 = xs →
      (∀ e ∈ p2, consumerPhase e = true) →
      exec grow (NewUnboundedChan α) (p1 ++ Event.callClose :: p2) = some s →
      (∃ j m, recvResults grow (NewUnboundedChan α) (p1 ++ Event.callClose :: p2) =
          (xs.take j).map some ++ List.replicate m none ∧ (0 < m → j = xs.length)) ∧
      ((s.pc = .returned ∧ s.out.buf = [] ∧ s.out.closed = true ∧
          received grow (NewUnboundedChan α) (p1 ++ Event.callClose :: p2) = xs) ∨
        ∃ e s1, consumerPhase e = true ∧ step grow e s = some s1 ∧ workLeft s1 < workLeft s) ∧
      (∀ e s1, consumerPhase e = true → step grow e s = some s1 → workLeft s1 ≤ workLeft s)) ∧
    (∀ k : Nat,
      (∀ e ∈ submitAll xs, producerPhase e = true) ∧ sends (submitAll xs) = xs ∧
      (∀ e ∈ (closeAndDrain xs.length k : List (Event α)), consumerPhase e = true) ∧
      (∃ s, exec grow (NewUnboundedChan α)
          (submitAll xs ++ Event.callClose :: closeAndDrain xs.length k) = some s ∧
          s.pc = .returned ∧ s.fault = none) ∧
      recvResults grow (NewUnboundedChan α)
          (submitAll xs ++ Event.callClose :: closeAndDrain xs.length k) =
        xs.map some ++ List.replicate k none) := by
  constructor
  · intro p1 p2 s hp1 hs hp2 h
    subst hs
    exact ⟨submit_then_close_safe grow p1 p2 s hp1 hp2 h,
      submit_then_close_progress grow p1 p2 s hp1 hp2 h⟩
  · intro k
    exact ⟨(submitAll_shape xs).1, (submitAll_shape xs).2, closeAndDrain_shape xs.length k,
      (submit_then_close_live grow xs k).1, (submit_then_close_live grow xs k).2⟩

/-- Witness of C2: submit 1, 2, 3, close, then receive five times. -/
theorem C2_submit_then_close_witness :
    recvResults doubling (NewUnboundedChan Nat)
        (submitAll [1, 2, 3] ++ Event.callClose :: closeAndDrain 3 2) =
      [some 1, some 2, some 3, none, none] ∧
    ∃ j m, recvResults doubling (NewUnboundedChan Nat)
        ([.send 1, .send 2, .relay .recvIn, .send 3] ++ Event.callClose ::
          [.relay .recvClose, .relay .next, .relay .next, .relay .next, .relay .next,
            .relay .next, .recv, .relay .next, .relay .next, .recv]) =
          (([1, 2, 3] : List Nat).take j).map some ++ List.replicate m none ∧
        (0 < m → j = ([1, 2, 3] : List Nat).length) :=
  ⟨((C2_submit_then_close doubling [1, 2, 3]).2 2).2.2.2.2,
    ((C2_submit_then_close doubling [1, 2, 3]).1 [.send 1, .send 2, .relay .recvIn, .send 3]
      [.relay .recvClose, .relay .next, .relay .next, .relay .next, .relay .next,
        .relay .next, .recv, .relay .next, .relay .next, .recv]
      { in_ := ⟨[], true⟩, out := ⟨[3], false⟩, closeWaiting := 0, closeClosed := false,
        q := [], qcap := 1021, pc := .closedFlush, fault := none }
      (by decide) (by decide) (by decide) (by decide)).1⟩

theorem held_relay_exec (grow : Nat → Nat) (cs : List Choice) :
    ∀ s s1 : UnboundedChan α, exec grow s (cs.map Event.relay) = some s1 → held s1 = held s := by
  induction cs with
  | nil => intro s s1 h; simp [exec] at h; rw [h]
  | cons c cs ih =>
    intro s s1 h
    simp only [List.map_cons, exec] at h
    cases hst : step grow (Event.relay c) s with
    | none => simp [hst] at h
    | some t =>
      simp only [hst] at h
      have h1 := held_step grow (Event.relay c) s t hst
      simp only [acceptedAt, resultAt, List.append_nil, List.filterMap_nil, List.nil_append] at h1
      rw [ih t s1 h, ← h1]

theorem no_close_without_consumer (grow : Nat → Nat) (cs : List Choice)
    (s s1 : UnboundedChan α) (hi : Inv s) (hlen : slotCap < (held s).length)
    (h : exec grow s (cs.map Event.relay) = some s1) : s1.out.closed = false := by
  have hi1 := inv_exec grow _ s s1 hi h
  have hh := held_relay_exec grow cs s s1 h
  cases hc : s1.out.closed with
  | false => rfl
  | true =>
    have hpc := hi1.outClosed hc
    have hq := hi1.flushed (Or.inr hpc)
    have hin := hi1.drained (Or.inr (Or.inr hpc))
    have hl := hi1.outLen
    have : (held s1).length = s1.out.buf.length := by simp [held, hq, hin]
    rw [hh] at this
    omega

theorem stuckFlush_relay_exec (cs : List Choice) :
    ∀ s : UnboundedChan Nat, exec doubling stuckFlush (cs.map Event.relay) = some s →
      s = stuckFlush := by
  induction cs with
  | nil => intro s h; simp [exec] at h; exact h.symm
  | cons c cs ih =>
    intro s h
    have hst : step doubling (Event.relay c) stuckFlush = some stuckFlush ∨
        step doubling (Event.relay c) stuckFlush = none := by
      cases c
      · exact Or.inr (by decide)
      · exact Or.inr (by decide)
      · exact Or.inr (by decide)
      · exact Or.inl (by decide)
    simp only [List.map_cons, exec] at h
    rcases hst with hst | hst
    · rw [hst] at h
      exact ih s h
    · rw [hst] at h
      simp at h

/-- C3: the code at the failing input.  With no consumer, 1 to 16 fill `out` and
17 stays in `q`; `Close()` is called and the relay runs `closed()` up to its
flush loop.  There the send case is not ready and the empty `default:` is
taken: the iteration is enabled (the flush does not block) but leaves the
state as it is, 17 still at the head of `q`, because `ch.q = ch.q[1:]` stands
inside the send case only.  So no run of the relay alone ever leaves this
state: 17 is not discarded, `q` is not emptied, `out` is not closed and the
relay does not return. -/
theorem C3_flush_spins_on_full_out :
    exec doubling (NewUnboundedChan Nat) fillThenClose = some stuckFlush ∧
      stuckFlush.pc = .closedFlush ∧ stuckFlush.q = [17] ∧
      stuckFlush.out.buf.length = slotCap ∧ stuckFlush.out.closed = false ∧
      step doubling (Event.relay .next) stuckFlush = some stuckFlush ∧
      ¬ ∃ (cs : List Choice) (s : UnboundedChan Nat),
        exec doubling stuckFlush (cs.map Event.relay) = some s ∧
          (s ≠ stuckFlush ∨ s.q = [] ∨ s.out.closed = true ∨ s.pc = .returned ∨
            17 ∉ held s) := by
  refine ⟨by decide, rfl, rfl, rfl, rfl, by decide, ?_⟩
  rintro ⟨cs, s, h, hbad⟩
  have hs := stuckFlush_relay_exec cs s h
  subst hs
  rcases hbad with hbad | hbad | hbad | hbad | hbad
  · exact hbad rfl
  · exact absurd hbad (by decide)
  · exact absurd hbad (by decide)
  · exact absurd hbad (by decide)
  · exact hbad (by decide)

theorem innerLoop_bound (t : UnboundedChan α) (hf : t.fault = none) :
    misuseBound (innerLoop t) = 2 * t.in_.buf.length + t.q.length + 2 := by
  have hr := innerLoop_rest t
  have hq := innerLoop_q t
  have hpc := innerLoop_pc t
  unfold misuseBound
  rw [hr.2.2.1, hf]
  simp only [hr.1, hq]
  rcases hpc with hpc | hpc <;> simp [hpc]

theorem misused_innerLoop (t : UnboundedChan α) (hc : t.in_.closed = true)
    (hf : t.fault = none) : Misused (innerLoop t) := by
  have hr := innerLoop_rest t
  refine ⟨by rw [hr.1]; exact hc, ?_, ?_⟩
  · rcases innerLoop_pc t with h | h
    · exact Or.inl h
    · exact Or.inr (Or.inl h)
  · intro f hff
    rw [hr.2.2.1, hf] at hff
    simp at hff

theorem misused_step (grow : Nat → Nat) (e : Event α) (s s1 : UnboundedChan α)
    (hi : Inv s) (hm : Misused s) (he : besideRelay e = true)
    (hs : step grow e s = some s1) :
    Misused s1 ∧ relaySteps [e] + misuseBound s1 ≤ misuseBound s := by
  obtain ⟨hc, hpc, _⟩ := hm
  have hoc : s.out.closed = false := by
    cases hoc : s.out.closed
    · rfl
    · have := hi.outClosed hoc
      rcases hpc with h | h | h <;> simp [h] at this
  have hcc : s.closeClosed = false := by
    cases hcc : s.closeClosed
    · rfl
    · have := hi.sigClosed hcc
      rcases hpc with h | h | h <;> simp [h] at this
  unfold step at hs
  split at hs
  · simp at hs
  · rename_i hnf
    have hf : s.fault = none := by
      cases hff : s.fault
      · rfl
      · simp [hff] at hnf
    cases e with
    | send v => simp [besideRelay] at he
    | closeIn => simp [besideRelay] at he
    | recv =>
      simp only [recvOut] at hs
      split at hs
      · cases hs
        exact ⟨⟨hc, hpc, by simp [hf]⟩, by simp [relaySteps, misuseBound]⟩
      · simp [hoc] at hs
    | callClose =>
      simp only [Close, hcc] at hs
      simp at hs
      subst hs
      exact ⟨⟨hc, hpc, by simp [hf]⟩, by simp [relaySteps, misuseBound]⟩
    | relay c =>
      have hin : ∀ t : UnboundedChan α, recvIn grow s = some t →
          Misused t ∧ 1 + misuseBound t ≤ 2 * s.in_.buf.length + s.q.length + 2 := by
        intro t ht
        unfold recvIn at ht
        split at ht
        · rename_i e rest hb
          cases ht
          refine ⟨misused_innerLoop _ (by simpa [appendQ] using hc) (by simpa [appendQ] using hf), ?_⟩
          rw [innerLoop_bound _ (by simpa [appendQ] using hf)]
          simp [appendQ, hb]
          omega
        · simp only [hc] at ht
          simp at ht
          subst ht
          exact ⟨⟨hc, hpc, by simp⟩, by simp [misuseBound]⟩
      have hcl : ∀ t : UnboundedChan α, recvClose s = some t →
          Misused t ∧ 1 + misuseBound t ≤ 2 * s.in_.buf.length + s.q.length + 2 := by
        intro t ht
        unfold recvClose at ht
        split at ht
        · cases ht
          exact ⟨⟨hc, Or.inr (Or.inr rfl), by simp [hf]⟩, by simp [misuseBound, hf]; omega⟩
        · simp [hcc] at ht
      have hout : ∀ t : UnboundedChan α, sendOut s = some t →
          Misused t ∧ 1 + misuseBound t ≤ 2 * s.in_.buf.length + s.q.length + 2 := by
        intro t ht
        unfold sendOut at ht
        split at ht
        · simp at ht
        · rename_i e rest hb
          split at ht
          · rename_i hh; simp [hoc] at hh
          · split at ht
            · cases ht
              refine ⟨misused_innerLoop _ (by simpa using hc) (by simpa using hf), ?_⟩
              rw [innerLoop_bound _ (by simpa using hf)]
              simp [hb]
              omega
            · simp at ht
      change processing grow c s = some s1 at hs
      simp only [relaySteps]
      unfold processing at hs
      split at hs
      · rename_i hp
        have := hin _ hs
        simp only [misuseBound, hf, hp]
        simpa using this
      · rename_i hp
        have := hcl _ hs
        simp only [misuseBound, hf, hp]
        simpa using this
      · rename_i hp
        have := hout _ hs
        simp only [misuseBound, hf, hp]
        simpa using this
      · rename_i hp
        have := hin _ hs
        simp only [misuseBound, hf, hp]
        simpa using this
      · rename_i hp
        have := hcl _ hs
        simp only [misuseBound, hf, hp]
        simpa using this
      · rename_i hp
        simp only [closed, hp, hc] at hs
        simp at hs
        subst hs
        exact ⟨⟨hc, Or.inr (Or.inr rfl), by simp⟩, by simp [misuseBound, hf, hp]⟩
      · rename_i hp
        rcases hpc with h | h | h <;> simp [h] at hp
      · rename_i hp
        rcases hpc with h | h | h <;> simp [h] at hp
      · rename_i hp
        rcases hpc with h | h | h <;> simp [h] at hp
      · rename_i hp
        rcases hpc with h | h | h <;> simp [h] at hp
      · simp at hs

theorem quiet_innerLoop (t : UnboundedChan α) (hw : t.closeWaiting = 0) (hf : t.fault = none) :
    MisusedQuiet (innerLoop t) := by
  have hr := innerLoop_rest t
  refine ⟨by rw [hr.2.2.2.1]; exact hw, innerLoop_pc t, ?_⟩
  intro f hff
  rw [hr.2.2.1, hf] at hff
  simp at hff

theorem quiet_step (grow : Nat → Nat) (e : Event α) (s s1 : UnboundedChan α)
    (hi : Inv s) (hc : s.in_.closed = true) (hm : MisusedQuiet s)
    (he : besideRelay e = true) (hne : e ≠ Event.callClose)
    (hs : step grow e s = some s1) : MisusedQuiet s1 := by
  obtain ⟨hw, hpc, _⟩ := hm
  have hoc : s.out.closed = false := by
    cases hoc : s.out.closed
    · rfl
    · have := hi.outClosed hoc
      rcases hpc with h | h <;> simp [h] at this
  have hcc : s.closeClosed = false := by
    cases hcc : s.closeClosed
    · rfl
    · have := hi.sigClosed hcc
      rcases hpc with h | h <;> simp [h] at this
  unfold step at hs
  split at hs
  · simp at hs
  · rename_i hnf
    have hf : s.fault = none := by
      cases hff : s.fault
      · rfl
      · simp [hff] at hnf
    cases e with
    | send v => simp [besideRelay] at he
    | closeIn => simp [besideRelay] at he
    | callClose => exact absurd rfl hne
    | recv =>
      simp only [recvOut] at hs
      split at hs
      · cases hs
        exact ⟨hw, hpc, by simp [hf]⟩
      · simp [hoc] at hs
    | relay c =>
      have hin : ∀ t : UnboundedChan α, recvIn grow s = some t → MisusedQuiet t := by
        intro t ht
        unfold recvIn at ht
        split at ht
        · cases ht
          exact quiet_innerLoop _ (by simpa [appendQ] using hw) (by simpa [appendQ] using hf)
        · simp only [hc] at ht
          simp at ht
          subst ht
          exact ⟨hw, hpc, by simp⟩
      have hcl : ∀ t : UnboundedChan α, recvClose s = some t → MisusedQuiet t := by
        intro t ht
        simp [recvClose, hw, hcc] at ht
      have hout : ∀ t : UnboundedChan α, sendOut s = some t → MisusedQuiet t := by
        intro t ht
        unfold sendOut at ht
        split at ht
        · simp at ht
        · split at ht
          · rename_i hh; simp [hoc] at hh
          · split at ht
            · cases ht
              exact quiet_innerLoop _ (by simpa using hw) (by simpa using hf)
            · simp at ht
      change processing grow c s = some s1 at hs
      unfold processing at hs
      split at hs
      · exact hin _ hs
      · exact hcl _ hs
      · exact hout _ hs
      · exact hin _ hs
      · exact hcl _ hs
      all_goals (rcases hpc with hpc | hpc <;> simp_all)

theorem step_in_closed (grow : Nat → Nat) (e : Event α) (s s1 : UnboundedChan α)
    (hc : s.in_.closed = true) (hs : step grow e s = some s1) : s1.in_.closed = true := by
  unfold step at hs
  split at hs
  · simp at hs
  · cases e with
    | send v =>
      simp only [sendIn, hc] at hs
      simp at hs
      subst hs
      exact hc
    | recv =>
      simp only [recvOut] at hs
      split at hs
      · cases hs; exact hc
      · split at hs
        · cases hs; exact hc
        · simp at hs
    | callClose =>
      simp only [Close] at hs
      split at hs <;> cases hs <;> exact hc
    | closeIn =>
      simp only [closeIn, hc] at hs
      simp at hs
      subst hs
      exact hc
    | relay c =>
      have hin : ∀ t : UnboundedChan α, recvIn grow s = some t → t.in_.closed = true := by
        intro t ht
        unfold recvIn at ht
        split at ht
        · cases ht
          rw [(innerLoop_rest _).1]
          simpa [appendQ] using hc
        · simp only [hc, if_true] at ht
          cases ht
          exact hc
      have hcl : ∀ t : UnboundedChan α, recvClose s = some t → t.in_.closed = true := by
        intro t ht
        unfold recvClose at ht
        split at ht
        · cases ht; exact hc
        · split at ht
          · cases ht; exact hc
          · simp at ht
      have hout : ∀ t : UnboundedChan α, sendOut s = some t → t.in_.closed = true := by
        intro t ht
        unfold sendOut at ht
        split at ht
        · simp at ht
        · split at ht
          · cases ht; exact hc
          · split at ht
            · cases ht
              rw [(innerLoop_rest _).1]
              exact hc
            · simp at ht
      have hcd : ∀ t : UnboundedChan α, closed grow s = some t → t.in_.closed = true := by
        intro t ht
        unfold closed at ht
        split at ht
        · split at ht <;> cases ht <;> exact hc
        · split at ht
          · cases ht
            simpa [appendQ] using hc
          · simp only [hc, if_true] at ht
            cases ht
            exact hc
        · split at ht
          · cases ht; exact hc
          · split at ht
            · cases ht; exact hc
            · split at ht <;> cases ht <;> exact hc
        · split at ht <;> cases ht <;> exact hc
        · split at ht
          · cases ht; exact hc
          · split at ht <;> cases ht <;> exact hc
        · simp at ht
      change processing grow c s = some s1 at hs
      unfold processing at hs
      split at hs
      · exact hin _ hs
      · exact hcl _ hs
      · exact hout _ hs
      · exact hin _ hs
      · exact hcl _ hs
      · exact hcd _ hs
      · exact hcd _ hs
      · exact hcd _ hs
      · exact hcd _ hs
      · exact hcd _ hs
      · simp at hs

theorem misused_exec (grow : Nat → Nat) (tr : List (Event α)) :
    ∀ s s1 : UnboundedChan α, Inv s → Misused s → (∀ e ∈ tr, besideRelay e = true) →
      exec grow s tr = some s1 →
      Misused s1 ∧ relaySteps tr + misuseBound s1 ≤ misuseBound s := by
  induction tr with
  | nil =>
    intro s s1 _ hm _ h
    simp [exec] at h
    subst h
    exact ⟨hm, by simp [relaySteps]⟩
  | cons e es ih =>
    intro s s1 hi hm hp h
    simp only [exec] at h
    cases hst : step grow e s with
    | none => simp [hst] at h
    | some s2 =>
      simp only [hst] at h
      obtain ⟨hm2, hb2⟩ := misused_step grow e s s2 hi hm (hp e (by simp)) hst
      obtain ⟨hm3, hb3⟩ := ih s2 s1 (inv_step grow e s s2 hi hst) hm2
        (fun x hx => hp x (by simp [hx])) h
      refine ⟨hm3, ?_⟩
      have : relaySteps (e :: es) = relaySteps [e] + relaySteps es := by
        cases e <;> simp [relaySteps]; omega
      omega

theorem quiet_exec (grow : Nat → Nat) (tr : List (Event α)) :
    ∀ s s1 : UnboundedChan α, Inv s → s.in_.closed = true → MisusedQuiet s →
      (∀ e ∈ tr, besideRelay e = true ∧ e ≠ Event.callClose) →
      exec grow s tr = some s1 → MisusedQuiet s1 := by
  induction tr with
  | nil =>
    intro s s1 _ _ hm _ h
    simp [exec] at h
    subst h
    exact hm
  | cons e es ih =>
    intro s s1 hi hc hm hp h
    simp only [exec] at h
    cases hst : step grow e s with
    | none => simp [hst] at h
    | some s2 =>
      simp only [hst] at h
      have he := hp e (by simp)
      exact ih s2 s1 (inv_step grow e s s2 hi hst) (step_in_closed grow e s s2 hc hst)
        (quiet_step grow e s s2 hi hc hm he.1 he.2 hst) (fun x hx => hp x (by simp [hx])) h

/-- C5 (amended): after a raw close of `In()`, from every state with the relay
in its loop, every run of the relay (next to consumer receives and calls of
`Close()`) takes at most `2 * len(in) + len(q) + 2` relay steps, never reaches
the normal end of `closed()` (`out` is never closed, the relay never
returns), can always take a further step while no panic has been raised, and
the only panics it ends in are the misuse panic (the input receive of a
`select` sees the closed, drained `in`) and the runtime's close of a closed
channel (a `select` picked a pending close signal and `closed()` closes `in`
again); with no `Close()` pending or called it is always the misuse panic. -/
theorem C5_raw_close_panics (grow : Nat → Nat) (s s1 : UnboundedChan α)
    (tr : List (Event α)) (hi : Inv s) (hf : s.fault = none)
    (hpc : s.pc = .outerSelect ∨ s.pc = .innerSelect) (hin : s.in_.closed = true)
    (htr : ∀ e ∈ tr, besideRelay e = true) (h : exec grow s tr = some s1) :
    relaySteps tr ≤ 2 * s.in_.buf.length + s.q.length + 2 ∧
      s1.pc ≠ .returned ∧ s1.out.closed = false ∧
      (s1.fault = none → ∃ c t, processing grow c s1 = some t) ∧
      (∀ f, s1.fault = some f → f = .misuseInClosed ∨ f = .closeOfClosedChannel) ∧
      (s.closeWaiting = 0 → (∀ e ∈ tr, e ≠ Event.callClose) →
        ∀ f, s1.fault = some f → f = .misuseInClosed) := by
  have hm : Misused s := ⟨hin, by rcases hpc with h | h <;> simp [h], by simp [hf]⟩
  obtain ⟨hm1, hb⟩ := misused_exec grow tr s s1 hi hm htr h
  have hi1 := inv_exec grow tr s s1 hi h
  have hnr : s1.pc ≠ .returned := by
    intro hr
    rcases hm1.atLoop with h | h | h <;> simp [hr] at h
  have hoc : s1.out.closed = false := by
    cases hoc : s1.out.closed
    · rfl
    · have := hi1.outClosed hoc
      rcases hm1.atLoop with h | h | h <;> simp [h] at this
  refine ⟨?_, hnr, hoc, ?_, hm1.faults, ?_⟩
  · have hμ : misuseBound s = 2 * s.in_.buf.length + s.q.length + 2 := by
      rcases hpc with h | h <;> simp [misuseBound, hf, h]
    omega
  · intro hf1
    have hrecv : ∃ t, recvIn grow s1 = some t := by
      unfold recvIn
      cases s1.in_.buf with
      | nil => simp [hm1.inClosed]
      | cons e rest => simp
    rcases hm1.atLoop with h1 | h1 | h1
    · obtain ⟨t, ht⟩ := hrecv
      exact ⟨.recvIn, t, by simp [processing, h1, ht]⟩
    · obtain ⟨t, ht⟩ := hrecv
      exact ⟨.recvIn, t, by simp [processing, h1, ht]⟩
    · exact ⟨.next, { s1 with fault := some .closeOfClosedChannel },
        by simp [processing, h1, closed, hm1.inClosed]⟩
  · intro hw hnc
    exact (quiet_exec grow tr s s1 hi hin ⟨hw, hpc, by simp [hf]⟩
      (fun e he => ⟨htr e he, hnc e he⟩) h).faults

/-- Witness of C5 (amended): `In()` closed raw with one value in it; the relay
takes the value, hands it to `out`, and panics on its next input receive. -/
theorem C5_raw_close_panics_witness :
    relaySteps ([.relay .recvIn, .relay .sendOut, .relay .recvIn] : List (Event Nat)) ≤
        2 * [7].length + ([] : List Nat).length + 2 ∧
      exec doubling (⟨⟨[7], true⟩, ⟨[], false⟩, 0, false, [], 1024, .outerSelect, none⟩ :
          UnboundedChan Nat) [.relay .recvIn, .relay .sendOut, .relay .recvIn] =
        some ⟨⟨[], true⟩, ⟨[7], false⟩, 0, false, [], 1023, .outerSelect,
          some .misuseInClosed⟩ :=
  ⟨(C5_raw_close_panics doubling
      (⟨⟨[7], true⟩, ⟨[], false⟩, 0, false, [], 1024, .outerSelect, none⟩ : UnboundedChan Nat)
      ⟨⟨[], true⟩, ⟨[7], false⟩, 0, false, [], 1023, .outerSelect, some .misuseInClosed⟩
      [.relay .recvIn, .relay .sendOut, .relay .recvIn]
      (by constructor <;> simp [slotCap]) rfl (Or.inl rfl) rfl (by decide) (by decide)).1,
    by decide⟩

/-- Counterexample to C5 as stated: `In()` is closed raw and `Close()` is
called; the relay, at its outer `select`, picks the close signal, and
`closed()` then panics with the runtime's close of a closed channel, not with
the misuse panic. -/
theorem C5_counterexample :
    exec doubling (NewUnboundedChan Nat) [.closeIn, .callClose] =
        some ⟨⟨[], true⟩, ⟨[], false⟩, 1, false, [], 1024, .outerSelect, none⟩ ∧
      exec doubling
          (⟨⟨[], true⟩, ⟨[], false⟩, 1, false, [], 1024, .outerSelect, none⟩ : UnboundedChan Nat)
          [.relay .recvClose, .relay .next] =
        some ⟨⟨[], true⟩, ⟨[], false⟩, 0, false, [], 1024, .closedEntry,
          some .closeOfClosedChannel⟩ := by
  constructor <;> decide

theorem exec_takeAll (grow : Nat → Nat) (o : Chan α) (w : Nat) (ib : List α) :
    ∀ (q : List α) (c : Nat) (pc : PC), pc = .outerSelect ∨ pc = .innerSelect →
      ∃ c1 pc1, (pc1 = .outerSelect ∨ pc1 = .innerSelect) ∧
        exec grow ⟨⟨ib, false⟩, o, w, false, q, c, pc, none⟩
            (List.replicate ib.length (Event.relay .recvIn)) =
          some ⟨⟨[], false⟩, o, w, false, q ++ ib, c1, pc1, none⟩ := by
  induction ib with
  | nil =>
    intro q c pc hpc
    exact ⟨c, pc, hpc, by simp [exec]⟩
  | cons x xs ih =>
    intro q c pc hpc
    obtain ⟨c1, pc1, hpc1, h1⟩ := ih (q ++ [x]) (if q.length < c then c else grow c) .innerSelect
      (Or.inr rfl)
    refine ⟨c1, pc1, hpc1, ?_⟩
    rcases hpc with rfl | rfl <;>
      simpa [List.replicate_succ, exec, step, processing, recvIn, innerLoop, appendQ] using h1

theorem sends_burst (n : Nat) (vs : List α) :
    sends (List.replicate n (Event.relay Choice.recvIn) ++ submitAll vs) = vs ∧
      ∀ e ∈ List.replicate n (Event.relay Choice.recvIn) ++ submitAll vs,
        producerPhase e = true ∨ e = Event.recv := by
  constructor
  · induction n with
    | zero => simpa using (submitAll_shape vs).2
    | succ n ih => simpa [List.replicate_succ, sends] using ih
  · intro e he
    simp only [List.mem_append, List.mem_replicate] at he
    rcases he with ⟨_, rfl⟩ | he
    · exact Or.inl rfl
    · exact Or.inl ((submitAll_shape vs).1 e he)

/-- C6: in every state of the relay's loop before any close (nothing closed, no
`Close()` requested, no panic), whatever `q` and `out` hold: a value at the
head of `in` can be taken by the relay, which appends it to `q` and leaves
`out` alone; a send is accepted whenever `in` has room; and every burst `vs`
can be accepted in full with no consumer step, by the run in which the relay
first empties `in` and then takes each value as it is sent: it ends in such a
state again, with no panic, `q` extended by the old contents of `in` and by
`vs` in order, and `vs` as the values accepted. -/
theorem C6_unbounded (grow : Nat → Nat) (s : UnboundedChan α) (hr : Running s) :
    (∀ v rest, s.in_.buf = v :: rest →
      ∃ t, processing grow .recvIn s = some t ∧ t.q = s.q ++ [v] ∧ t.in_.buf = rest ∧
        t.out = s.out ∧ Running t) ∧
    (∀ v, s.in_.buf.length < slotCap →
      ∃ t, step grow (Event.send v) s = some t ∧ t.in_.buf = s.in_.buf ++ [v] ∧ Running t) ∧
    (∀ vs : List α,
      ∃ t, exec grow s (List.replicate s.in_.buf.length (Event.relay .recvIn) ++ submitAll vs) =
          some t ∧
        Running t ∧ t.out = s.out ∧ t.q = s.q ++ s.in_.buf ++ vs ∧ t.in_.buf = [] ∧
        held t = held s ++ vs ∧
        accepted grow s (List.replicate s.in_.buf.length (Event.relay .recvIn) ++ submitAll vs) =
          vs) := by
  refine ⟨?_, ?_, ?_⟩
  · intro v rest hb
    have hst : step grow (Event.relay .recvIn) s =
        some (innerLoop (appendQ grow { s with in_ := { s.in_ with buf := rest } } v)) := by
      have hf := hr.noFault
      rcases hr.atSelect with h | h <;> simp [step, hf, processing, h, recvIn, hb]
    have hrun := (running_step grow (Event.relay .recvIn) s _ hr (Or.inl rfl) hst).1
    refine ⟨_, ?_, ?_, ?_, ?_, hrun⟩
    · rcases hr.atSelect with h | h <;> simp [processing, h, recvIn, hb]
    · rw [innerLoop_q]; simp [appendQ]
    · rw [(innerLoop_rest _).1]; simp [appendQ]
    · rw [(innerLoop_rest _).2.1]; simp [appendQ]
  · intro v hl
    have hst : step grow (Event.send v) s =
        some { s with in_ := { s.in_ with buf := s.in_.buf ++ [v] } } := by
      simp [step, hr.noFault, sendIn, hr.inOpen, hl]
    exact ⟨_, hst, rfl, (running_step grow (Event.send v) s _ hr (Or.inl rfl) hst).1⟩
  · intro vs
    obtain ⟨hf, hi, ho, hw, hc, hpc⟩ := hr
    obtain ⟨⟨ib, ic⟩, ⟨ob, oc⟩, w, cc, q, c, pc, f⟩ := s
    simp only at hf hi ho hw hc hpc
    subst hf hi ho hw hc
    obtain ⟨c1, pc1, hpc1, h1⟩ := exec_takeAll grow (⟨ob, false⟩ : Chan α) 0 ib q c pc hpc
    obtain ⟨c2, pc2, hpc2, h2⟩ := exec_submitAll grow (⟨ob, false⟩ : Chan α) 0 vs (q ++ ib) c1 pc1
      hpc1
    have hex : exec grow ⟨⟨ib, false⟩, ⟨ob, false⟩, 0, false, q, c, pc, none⟩
        (List.replicate ib.length (Event.relay .recvIn) ++ submitAll vs) =
        some ⟨⟨[], false⟩, ⟨ob, false⟩, 0, false, q ++ ib ++ vs, c2, pc2, none⟩ := by
      rw [exec_append, h1, Option.some_bind, h2]
    refine ⟨_, hex, ⟨rfl, rfl, rfl, rfl, rfl, hpc2⟩, rfl, rfl, rfl, by simp [held], ?_⟩
    have hs := sends_burst ib.length vs
    rw [(running_exec grow _ _ _ ⟨rfl, rfl, rfl, rfl, rfl, hpc⟩ hs.2 hex).2, hs.1]

/-- Witness of C6: a burst of three values into a fresh queue. -/
theorem C6_unbounded_witness :
    ∃ t, exec doubling (NewUnboundedChan Nat)
        (List.replicate (NewUnboundedChan Nat).in_.buf.length (Event.relay .recvIn) ++
          submitAll [1, 2, 3]) = some t ∧
      Running t ∧ t.out = (NewUnboundedChan Nat).out ∧
      t.q = (NewUnboundedChan Nat).q ++ (NewUnboundedChan Nat).in_.buf ++ [1, 2, 3] ∧
      t.in_.buf = [] ∧ held t = held (NewUnboundedChan Nat) ++ [1, 2, 3] ∧
      accepted doubling (NewUnboundedChan Nat)
        (List.replicate (NewUnboundedChan Nat).in_.buf.length (Event.relay .recvIn) ++
          submitAll [1, 2, 3]) = [1, 2, 3] :=
  (C6_unbounded doubling (NewUnboundedChan Nat)
    ⟨rfl, rfl, rfl, rfl, rfl, Or.inl rfl⟩).2.2 [1, 2, 3]

theorem exec_in_closed (grow : Nat → Nat) (tr : List (Event α)) :
    ∀ s s1 : UnboundedChan α, s.in_.closed = true → exec grow s tr = some s1 →
      s1.in_.closed = true := by
  induction tr with
  | nil => intro s s1 hc h; simp [exec] at h; exact h ▸ hc
  | cons e es ih =>
    intro s s1 hc h
    simp only [exec] at h
    cases hst : step grow e s with
    | none => simp [hst] at h
    | some s2 =>
      simp only [hst] at h
      exact ih s2 s1 (step_in_closed grow e s s2 hc hst) h

/-- C7: once `closed()` has executed `close(ch.in)`, at every later state of
every run a submit of any `v` on `In()` panics (send on closed channel): `in`,
`q` and `out` are left as they were, `v` is not accepted, and since the panic
ends the program no later event, in particular no later receive, exists. -/
theorem C7_submit_after_close (grow : Nat → Nat) (s0 s s1 : UnboundedChan α)
    (tr : List (Event α)) (v : α)
    (hpc : s0.pc = .closedEntry) (hstep : step grow (Event.relay .next) s0 = some s)
    (h : exec grow s tr = some s1) (hf : s1.fault = none) :
    s.in_.closed = true ∧
    ∃ s2, step grow (Event.send v) s1 = some s2 ∧ s2.fault = some .sendOnClosedChannel ∧
      s2.in_ = s1.in_ ∧ s2.q = s1.q ∧ s2.out = s1.out ∧
      acceptedAt s1 (Event.send v) = [] ∧ ∀ e, step grow e s2 = none := by
  have hc : s.in_.closed = true := by
    unfold step at hstep
    split at hstep
    · simp at hstep
    · change processing grow .next s0 = some s at hstep
      simp only [processing, hpc, closed] at hstep
      split at hstep
      · rename_i hh
        cases hstep
        exact hh
      · cases hstep
        rfl
  have hc1 := exec_in_closed grow tr s s1 hc h
  refine ⟨hc, { s1 with fault := some .sendOnClosedChannel }, ?_, rfl, rfl, rfl, rfl, ?_, ?_⟩
  · simp [step, hf, sendIn, hc1]
  · simp [acceptedAt, hc1]
  · intro e
    simp [step]

/-- Witness of C7: `Close()` after one value; the relay has closed `in`; a send
of 9 panics. -/
theorem C7_submit_after_close_witness :
    (⟨⟨[1], true⟩, ⟨[], false⟩, 0, false, [], 1024, .closedDrain, none⟩ :
        UnboundedChan Nat).in_.closed = true ∧
    ∃ s2, step doubling (Event.send 9)
        (⟨⟨[], true⟩, ⟨[], false⟩, 0, false, [1], 1024, .closedDrain, none⟩ : UnboundedChan Nat) =
        some s2 ∧ s2.fault = some .sendOnClosedChannel ∧
      s2.in_ = ⟨[], true⟩ ∧ s2.q = [1] ∧ s2.out = ⟨[], false⟩ ∧
      acceptedAt (⟨⟨[], true⟩, ⟨[], false⟩, 0, false, [1], 1024, .closedDrain, none⟩ :
        UnboundedChan Nat) (Event.send 9) = [] ∧ ∀ e, step doubling e s2 = none :=
  C7_submit_after_close doubling
    ⟨⟨[1], false⟩, ⟨[], false⟩, 0, false, [], 1024, .closedEntry, none⟩
    ⟨⟨[1], true⟩, ⟨[], false⟩, 0, false, [], 1024, .closedDrain, none⟩
    ⟨⟨[], true⟩, ⟨[], false⟩, 0, false, [1], 1024, .closedDrain, none⟩
    [.relay .next] 9 rfl (by decide) (by decide) rfl

/-- Witness of C4: `Close()` on an empty queue, the relay shuts down, and the
receives after the first `hasValue = false` return `hasValue = false`. -/
theorem C4_terminal_stability_witness :
    (∀ r ∈ recvResults doubling
        (⟨⟨[], true⟩, ⟨[], true⟩, 0, true, [], 1024, .returned, none⟩ : UnboundedChan Nat)
        [.recv, .recv], r = none) ∧
      (⟨⟨[], true⟩, ⟨[], true⟩, 0, true, [], 1024, .returned, none⟩ :
        UnboundedChan Nat).out.closed = true ∧
      (⟨⟨[], true⟩, ⟨[], true⟩, 0, true, [], 1024, .returned, none⟩ :
        UnboundedChan Nat).out.buf = [] :=
  C4_terminal_stability doubling
    [.callClose, .relay .recvClose, .relay .next, .relay .next, .relay .next, .relay .next,
      .relay .next] [.recv, .recv]
    ⟨⟨[], true⟩, ⟨[], true⟩, 0, true, [], 1024, .returned, none⟩
    ⟨⟨[], true⟩, ⟨[], true⟩, 0, true, [], 1024, .returned, none⟩
    ⟨⟨[], true⟩, ⟨[], true⟩, 0, true, [], 1024, .returned, none⟩
    (by decide) (by decide) (by decide) (by decide)

/-- C9: the relay starts with an empty buffer of capacity 1024; in every
reachable state at the head of the outer loop the buffer is empty and its
capacity is at least 32; and at the head of the inner loop a buffer that
holds values is kept as it is, an empty one with capacity below 32 is
replaced by an empty one of capacity 1024, and an empty one with capacity at
least 32 is kept. -/
theorem C9_buffer_capacity (grow : Nat → Nat) (tr : List (Event α)) (s : UnboundedChan α)
    (h : exec grow (NewUnboundedChan α) tr = some s) :
    (NewUnboundedChan α).q = [] ∧ (NewUnboundedChan α).qcap = 1024 ∧
    (s.pc = .outerSelect → s.q = [] ∧ 32 ≤ s.qcap) ∧
    (s.pc = .innerSelect → s.q ≠ []) ∧
    (∀ t : UnboundedChan α,
      (t.q ≠ [] → innerLoop t = { t with pc := .innerSelect }) ∧
      (t.q = [] → t.qcap < 32 → innerLoop t = { t with q := [], qcap := 1024, pc := .outerSelect }) ∧
      (t.q = [] → 32 ≤ t.qcap → innerLoop t = { t with pc := .outerSelect })) := by
  have hi := inv_exec grow tr _ s inv_new h
  refine ⟨rfl, rfl, hi.outer, hi.inner, ?_⟩
  intro t
  refine ⟨?_, ?_, ?_⟩
  · intro hq
    have : 0 < t.q.length := List.length_pos.mpr hq
    simp [innerLoop, this]
  · intro hq hc
    simp [innerLoop, hq, hc]
  · intro hq hc
    have : ¬ t.qcap < 32 := by omega
    simp [innerLoop, hq, this]

/-- Witness of C9: one value put through the relay; back at the outer `select`
the buffer is empty with capacity 1023. -/
theorem C9_buffer_capacity_witness :
    (⟨⟨[], false⟩, ⟨[1], false⟩, 0, false, [], 1023, .outerSelect, none⟩ :
        UnboundedChan Nat).q = [] ∧
      32 ≤ (⟨⟨[], false⟩, ⟨[1], false⟩, 0, false, [], 1023, .outerSelect, none⟩ :
        UnboundedChan Nat).qcap :=
  (C9_buffer_capacity doubling [.send 1, .relay .recvIn, .relay .sendOut]
    ⟨⟨[], false⟩, ⟨[1], false⟩, 0, false, [], 1023, .outerSelect, none⟩ (by decide)).2.2.1 rfl

end Async

namespace Painter

variable {σ Img : Type}

theorem containsGlyph_true (font : Option (ttfFont σ)) (r : Int) (w : σ) :
    (containsGlyph font r w).1 = true ↔ ∃ f, font = some f ∧ (f.Index r w).1 ≠ 0 := by
  cases font with
  | none => simp [containsGlyph]
  | some f => simp [containsGlyph]

/-- C10: for every rune `r`, `Glyph`, `GlyphAdvance` and `GlyphBounds` forward to
the chosen face when the chosen font is non-nil and has a non-zero index for
`r`, and then only the chosen font's `Index` has run (the state handed to the
face is the one it left, so the fallback font is not consulted); otherwise
they forward to the fallback face when the fallback font is non-nil and has a
non-zero index for `r`; otherwise they return the zero results, with
`ok = false`. -/
theorem C10_glyph_fallback (c : compositeFace σ Img) (dot : Point) (r : Int) (w : σ) :
    (∀ f, c.chosenFont = some f → (f.Index r w).1 ≠ 0 →
      c.Glyph dot r w = c.chosen.map (fun face => face.Glyph dot r (f.Index r w).2) ∧
      c.GlyphAdvance r w = c.chosen.map (fun face => face.GlyphAdvance r (f.Index r w).2) ∧
      c.GlyphBounds r w = c.chosen.map (fun face => face.GlyphBounds r (f.Index r w).2)) ∧
    ((containsGlyph c.chosenFont r w).1 = false →
      (∀ g, c.fallbackFont = some g →
        (g.Index r (containsGlyph c.chosenFont r w).2).1 ≠ 0 →
        c.Glyph dot r w = c.fallback.map (fun face =>
          face.Glyph dot r (g.Index r (containsGlyph c.chosenFont r w).2).2) ∧
        c.GlyphAdvance r w = c.fallback.map (fun face =>
          face.GlyphAdvance r (g.Index r (containsGlyph c.chosenFont r w).2).2) ∧
        c.GlyphBounds r w = c.fallback.map (fun face =>
          face.GlyphBounds r (g.Index r (containsGlyph c.chosenFont r w).2).2)) ∧
      ((containsGlyph c.fallbackFont r (containsGlyph c.chosenFont r w).2).1 = false →
        c.Glyph dot r w = some (GlyphResult.zero Img,
          (containsGlyph c.fallbackFont r (containsGlyph c.chosenFont r w).2).2) ∧
        c.GlyphAdvance r w = some (AdvanceResult.zero,
          (containsGlyph c.fallbackFont r (containsGlyph c.chosenFont r w).2).2) ∧
        c.GlyphBounds r w = some (BoundsResult.zero,
          (containsGlyph c.fallbackFont r (containsGlyph c.chosenFont r w).2).2))) ∧
    (∀ (font : Option (ttfFont σ)) (v : σ),
      (containsGlyph font r v).1 = true ↔ ∃ f, font = some f ∧ (f.Index r v).1 ≠ 0) ∧
    (GlyphResult.zero Img).ok = false ∧ AdvanceResult.zero.ok = false ∧
      BoundsResult.zero.ok = false := by
  refine ⟨?_, ?_, fun font v => containsGlyph_true font r v, rfl, rfl, rfl⟩
  · intro f hf hne
    simp [compositeFace.Glyph, compositeFace.GlyphAdvance, compositeFace.GlyphBounds,
      containsGlyph, hf, hne]
  · intro hno
    constructor
    · intro g hg hne
      have hyes : (containsGlyph c.fallbackFont r (containsGlyph c.chosenFont r w).2).1 = true :=
        (containsGlyph_true _ _ _).mpr ⟨g, hg, hne⟩
      have hst : (containsGlyph c.fallbackFont r (containsGlyph c.chosenFont r w).2).2 =
          (g.Index r (containsGlyph c.chosenFont r w).2).2 := by
        simp [containsGlyph, hg]
      simp [compositeFace.Glyph, compositeFace.GlyphAdvance, compositeFace.GlyphBounds, hno,
        hyes, hst]
    · intro hno2
      simp [compositeFace.Glyph, compositeFace.GlyphAdvance, compositeFace.GlyphBounds, hno,
        hno2]

/-- Witness of C10: both fonts contain the rune; the chosen face answers and
the log of `Index` calls holds the chosen font's tag only. -/
theorem C10_glyph_fallback_witness :
    bothFace.GlyphAdvance 65 [] = some (⟨7, true⟩, [1]) :=
  ((C10_glyph_fallback bothFace ⟨0, 0⟩ 65 []).1 (logFont 1 5) rfl (by decide)).2.1

end Painter
